import Mathlib

/-!
Shallow embedding of the expression-binding and request-construction engine of
the MCP REST API server (parameter binding, URL building, schema validation,
configuration validation, response projection), together with proofs of the
specification claims about it.

Conventions of the embedding:
* JavaScript runtime values are modeled by `JsValue`; JS `number` is modeled
  exactly as `ℚ` (every numeric literal the engine parses is a decimal, which
  is an exact rational; no modeled behavior depends on binary-float rounding).
* JS objects are ordered association lists (`JsObj`), matching JS insertion
  order for `Object.entries` / `Object.keys`; keys are unique by construction
  of any concrete object.
* Strings are processed as `List Char`; JS `String.prototype.length` and
  UTF-16 details are not relied on by any modeled behavior.
* A thrown exception is an `Except.error`; the special `OMIT_MARKER` symbol is
  the dedicated constructor `JsValue.omitted`.
-/

/-- The character `{`, written via its code point. -/
def lbrace : Char := Char.ofNat 123

/-- The character `}`, written via its code point. -/
def rbrace : Char := Char.ofNat 125

/-- The single-quote character. -/
def squote : Char := Char.ofNat 39

/-- The double-quote character. -/
def dquote : Char := Char.ofNat 34

/-- The percent character. -/
def percentChar : Char := Char.ofNat 37

/-- Whitespace as matched by the engine's `\s` and `String.prototype.trim`
(the embedding models the common ASCII whitespace characters). -/
def isJsSpace (c : Char) : Bool :=
  c = Char.ofNat 32 || c = Char.ofNat 9 || c = Char.ofNat 10 || c = Char.ofNat 13

mutual
/-- A JavaScript runtime value as far as the engine observes it.
`omitted` is the `OMIT_MARKER` symbol from `ParameterBinding.ts`;
`undef` is JS `undefined`. -/
inductive JsValue where
  | str : String → JsValue
  | num : ℚ → JsValue
  | boolean : Bool → JsValue
  | null : JsValue
  | undef : JsValue
  | omitted : JsValue
  | arr : JsArr → JsValue
  | obj : JsObj → JsValue

/-- A JS array of `JsValue`s (spelled out to keep all recursion structural). -/
inductive JsArr where
  | nil : JsArr
  | cons : JsValue → JsArr → JsArr

/-- A JS object: an insertion-ordered association list of unique keys. -/
inductive JsObj where
  | nil : JsObj
  | cons : String → JsValue → JsObj → JsObj
end

deriving instance DecidableEq for JsValue, JsArr, JsObj

/-- JS property access `o[key]`: `undefined` when the key is absent. -/
def objGet : JsObj → String → JsValue
  | .nil, _ => .undef
  | .cons k v t, key => if k = key then v else objGet t key

/-- `Object.keys`, in insertion order. -/
def objKeys : JsObj → List String
  | .nil => []
  | .cons k _ t => k :: objKeys t

/-- Concatenation of two objects (used only to state theorems about
decompositions of a concrete object). -/
def objAppend : JsObj → JsObj → JsObj
  | .nil, o => o
  | .cons k v t, o => .cons k v (objAppend t o)

/-- The entries of an object as a list of pairs. -/
def objEntries : JsObj → List (String × JsValue)
  | .nil => []
  | .cons k v t => (k, v) :: objEntries t

/-- JS `typeof`. -/
def jsTypeof : JsValue → String
  | .str _ => "string"
  | .num _ => "number"
  | .boolean _ => "boolean"
  | .null => "object"
  | .undef => "undefined"
  | .omitted => "symbol"
  | .arr _ => "object"
  | .obj _ => "object"

/-- Rendering of a JS number by `String(...)`. Integers render exactly as in
JS; the non-integer rendering abstracts JS float formatting (no modeled
behavior or claim depends on it). -/
def ratToString (q : ℚ) : String :=
  if q.den = 1 then toString q.num else toString q.num ++ "/" ++ toString q.den

mutual
/-- JS `String(value)` string coercion, as used by the engine when an
expression is substituted inside a larger string and when a path parameter
is interpolated. `String` of the omit symbol is `"Symbol(OMIT)"`. -/
def jsToString : JsValue → String
  | .str s => s
  | .num q => ratToString q
  | .boolean b => if b then "true" else "false"
  | .null => "null"
  | .undef => "undefined"
  | .omitted => "Symbol(OMIT)"
  | .arr xs => arrToString xs
  | .obj _ => "[object Object]"

/-- `Array.prototype.toString`: elements joined with `,`,
`null`/`undefined` elements rendering as the empty string. -/
def arrToString : JsArr → String
  | .nil => ""
  | .cons v t =>
    let s := match v with
      | .null => ""
      | .undef => ""
      | w => jsToString w
    match t with
    | .nil => s
    | .cons _ _ => s ++ "," ++ arrToString t
end

/-- JS strict equality `===` restricted to the values the engine compares
(`Array.prototype.includes` on enum lists). Primitives compare by value;
two distinct array/object literals are distinct references, hence `false`. -/
def jsStrictEq : JsValue → JsValue → Bool
  | .str a, .str b => a == b
  | .num a, .num b => a == b
  | .boolean a, .boolean b => a == b
  | .null, .null => true
  | .undef, .undef => true
  | .omitted, .omitted => true
  | _, _ => false

/-- Membership of a value in a JS array, as `Array.prototype.includes`. -/
def arrIncludes : JsArr → JsValue → Bool
  | .nil, _ => false
  | .cons v t, x => jsStrictEq v x || arrIncludes t x

/-- Length of a JS array. -/
def arrLength : JsArr → Nat
  | .nil => 0
  | .cons _ t => arrLength t + 1

/-- A hexadecimal digit character, uppercase (as produced by
`encodeURIComponent`). -/
def hexDigitChar (n : Nat) : Char :=
  if n < 10 then Char.ofNat (48 + n) else Char.ofNat (55 + n)

/-- Percent-encoding `%XX` of one byte. -/
def percentEncodeByte (b : Nat) : List Char :=
  [percentChar, hexDigitChar (b / 16 % 16), hexDigitChar (b % 16)]

/-- The UTF-8 encoding of one code point, as a list of byte values. -/
def utf8Bytes (c : Char) : List Nat :=
  let n := c.toNat
  if n < 128 then [n]
  else if n < 2048 then [192 + n / 64, 128 + n % 64]
  else if n < 65536 then [224 + n / 4096, 128 + n / 64 % 64, 128 + n % 64]
  else [240 + n / 262144, 128 + n / 4096 % 64, 128 + n / 64 % 64, 128 + n % 64]

/-- The characters `encodeURIComponent` leaves unescaped
(`A-Z a-z 0-9 - _ . ! ~ * ( )` and the single quote). -/
def isUriUnreserved (c : Char) : Bool :=
  c.isAlpha || c.isDigit ||
  c = Char.ofNat 45 || c = Char.ofNat 95 || c = Char.ofNat 46 ||
  c = Char.ofNat 33 || c = Char.ofNat 126 || c = Char.ofNat 42 ||
  c = squote || c = Char.ofNat 40 || c = Char.ofNat 41

/-- Encoding of a single character under `encodeURIComponent`. -/
def encodeChar (c : Char) : List Char :=
  if isUriUnreserved c then [c] else (utf8Bytes c).flatMap percentEncodeByte

/-- ECMAScript `encodeURIComponent` on a character list. -/
def encodeURIComponentL (s : List Char) : List Char := s.flatMap encodeChar

/-- ECMAScript `encodeURIComponent`. -/
def encodeURIComponent (s : String) : String := ⟨encodeURIComponentL s.data⟩

example : encodeURIComponent "a b" = "a%20b" := by decide

/-! ## The expression micro-grammar

`EXPRESSION_REGEX = /\{(args|env)\.([a-zA-Z_][a-zA-Z0-9_]*)\??\s*(?:\|\|\s*([^}]+))?\}/g`
is modeled by a deterministic matcher `matchExprAt` that attempts a match at
the start of a character list and returns the captures together with the rest
of the input. The regex is deterministic at every choice point: the
alternation `args|env` is decided by the first character, the identifier and
whitespace repetitions are maximal-munch with no viable backtracking (the
characters that follow can never extend a shorter munch into a match), and
`[^}]+` is bounded by the closing brace. -/

/-- First character of an identifier: `[a-zA-Z_]`. -/
def identStartChar (c : Char) : Bool := c.isAlpha || c = Char.ofNat 95

/-- Subsequent identifier characters: `[a-zA-Z0-9_]`. -/
def identChar (c : Char) : Bool := c.isAlpha || c.isDigit || c = Char.ofNat 95

/-- Boolean prefix test on character lists. -/
def isPrefixList : List Char → List Char → Bool
  | [], _ => true
  | _ :: _, [] => false
  | a :: as, b :: bs => a == b && isPrefixList as bs

/-- Maximal run of identifier-continuation characters. -/
def takeIdentRest : List Char → List Char × List Char
  | [] => ([], [])
  | c :: t =>
    if identChar c then
      let p := takeIdentRest t
      (c :: p.1, p.2)
    else ([], c :: t)

/-- Match `[a-zA-Z_][a-zA-Z0-9_]*` (maximal munch). -/
def takeIdent : List Char → Option (List Char × List Char)
  | [] => none
  | c :: t =>
    if identStartChar c then
      let p := takeIdentRest t
      some (c :: p.1, p.2)
    else none

/-- Maximal run of whitespace (`\s*`). -/
def takeSpaces : List Char → List Char × List Char
  | [] => ([], [])
  | c :: t =>
    if isJsSpace c then
      let p := takeSpaces t
      (c :: p.1, p.2)
    else ([], c :: t)

/-- Match `[^}]*\}`: the characters before the next `}` and the rest after
it. `none` when no closing brace exists. -/
def takeUntilRbrace : List Char → Option (List Char × List Char)
  | [] => none
  | c :: t =>
    if c = rbrace then some ([], t)
    else (takeUntilRbrace t).map fun p => (c :: p.1, p.2)

/-- The alternation `(args|env)`, decided by the first character. -/
def matchKind (s : List Char) : Option (String × List Char) :=
  if isPrefixList "args".data s then some ("args", s.drop 4)
  else if isPrefixList "env".data s then some ("env", s.drop 3)
  else none

/-- The capture groups of one successful `EXPRESSION_REGEX` match:
`full` is `match[0]`, `kind` is `match[1]`, `key` is `match[2]` and
`defaultRaw` is `match[3]`. -/
structure ExprMatch where
  full : List Char
  kind : String
  key : List Char
  defaultRaw : Option (List Char)

/-- Attempt to match `EXPRESSION_REGEX` at the start of `s`; on success,
return the captures and the input remaining after the match. -/
def matchExprAt (s : List Char) : Option (ExprMatch × List Char) :=
  match s with
  | [] => none
  | c :: r1 =>
    if c = lbrace then
      match matchKind r1 with
      | none => none
      | some (kind, r2) =>
        match r2 with
        | [] => none
        | d :: r3 =>
          if d = Char.ofNat 46 then
            match takeIdent r3 with
            | none => none
            | some (key, r4) =>
              let qr : List Char × List Char :=
                match r4 with
                | q :: r5 => if q = Char.ofNat 63 then ([q], r5) else ([], r4)
                | [] => ([], [])
              let sr := takeSpaces qr.2
              match sr.2 with
              | [] => none
              | e1 :: r7 =>
                if e1 = rbrace then
                  some ({ full := lbrace :: (kind.data ++ d :: (key ++ qr.1 ++ sr.1 ++ [rbrace])),
                          kind := kind, key := key, defaultRaw := none }, r7)
                else if e1 = Char.ofNat 124 then
                  match r7 with
                  | [] => none
                  | e2 :: r8 =>
                    if e2 = Char.ofNat 124 then
                      let sr2 := takeSpaces r8
                      match takeUntilRbrace sr2.2 with
                      | none => none
                      | some (dflt, r9) =>
                        if dflt = [] then none
                        else
                          some ({ full := lbrace :: (kind.data ++ d ::
                                    (key ++ qr.1 ++ sr.1 ++ e1 :: e2 :: (sr2.1 ++ dflt ++ [rbrace]))),
                                  kind := kind, key := key, defaultRaw := some dflt }, r9)
                    else none
                else none
          else none
    else none

/-! ## Parameter binding (`ParameterBinding.ts`) -/

/-- The two-namespace context a `ParameterBinder` resolves against
(`this.context`): call arguments and the environment snapshot. -/
structure ParameterContext where
  args : JsObj
  env : List (String × String)

/-- Environment lookup: environment values are strings; a missing variable
reads as `undefined`. -/
def envGet : List (String × String) → String → JsValue
  | [], _ => .undef
  | (k, v) :: t, key => if k = key then .str v else envGet t key

/-- The `ParsedExpression` record produced by `ParameterBinder.parseExpression`
(absent optional fields are the JS `undefined`, modeled by `JsValue.undef`
for `defaultValue` and `none` for `key`). -/
structure ParsedExpression where
  etype : String
  key : Option String
  defaultValue : JsValue
  optional : Bool
  value : JsValue

/-- `String.prototype.trim`. -/
def trimJs (l : List Char) : List Char :=
  ((l.dropWhile fun c => isJsSpace c).reverse.dropWhile fun c => isJsSpace c).reverse

/-- Numeric value of a digit string (the value `parseInt(s, 10)` computes on
`^\d+$`). -/
def digitsToNat (l : List Char) : Nat :=
  l.foldl (fun acc c => 10 * acc + (c.toNat - 48)) 0

/-- Split a character list at every occurrence of `sep`
(JS `String.prototype.split` with a single-character separator). -/
def splitOnChar (sep : Char) : List Char → List (List Char)
  | [] => [[]]
  | c :: t =>
    let r := splitOnChar sep t
    if c = sep then [] :: r
    else
      match r with
      | [] => [[c]]
      | h :: rt => (c :: h) :: rt

/-- The boolean / `null` / `undefined` / raw-text cases of
`ParameterBinder.parseDefaultValue` (those after the numeric checks). -/
def parseDefaultTail (trimmed : List Char) : JsValue :=
  if trimmed = "true".data then .boolean true
  else if trimmed = "false".data then .boolean false
  else if trimmed = "null".data then .null
  else if trimmed = "undefined".data then .undef
  else .str ⟨trimmed⟩

/-- `ParameterBinder.parseDefaultValue`: fixed-precedence parsing of the
default literal of an expression: quoted string, then integer (`^\d+$`),
then float (`^\d+\.\d+$`), then `true`/`false`/`null`/`undefined`, then the
raw trimmed text. -/
def parseDefaultValue (defaultValue : List Char) : JsValue :=
  let trimmed := trimJs defaultValue
  if trimmed.head? = some dquote ∧ trimmed.getLast? = some dquote then
    .str ⟨(trimmed.drop 1).dropLast⟩
  else if trimmed.head? = some squote ∧ trimmed.getLast? = some squote then
    .str ⟨(trimmed.drop 1).dropLast⟩
  else if trimmed ≠ [] ∧ trimmed.all Char.isDigit then
    .num (digitsToNat trimmed)
  else
    match splitOnChar (Char.ofNat 46) trimmed with
    | [ip, fp] =>
      if ip ≠ [] ∧ ip.all Char.isDigit ∧ fp ≠ [] ∧ fp.all Char.isDigit then
        .num (digitsToNat ip + digitsToNat fp / 10 ^ fp.length)
      else parseDefaultTail trimmed
    | _ => parseDefaultTail trimmed

/-- `ParameterBinder.parseExpression` applied to the captures of one regex
match. -/
def parseExpression (ctx : ParameterContext) (m : ExprMatch) : ParsedExpression :=
  let isOptional := m.full.contains (Char.ofNat 63)
  let value : JsValue :=
    if m.kind = "args" then
      match objGet ctx.args ⟨m.key⟩ with
      | .undef =>
        match m.defaultRaw with
        | some d => parseDefaultValue d
        | none => if isOptional then .omitted else .undef
      | v => v
    else if m.kind = "env" then
      match envGet ctx.env ⟨m.key⟩ with
      | .undef =>
        match m.defaultRaw with
        | some d => parseDefaultValue d
        | none => if isOptional then .omitted else .undef
      | v => v
    else .undef
  { etype := m.kind, key := some ⟨m.key⟩,
    defaultValue :=
      match m.defaultRaw with
      | some d => parseDefaultValue d
      | none => .undef,
    optional := isOptional, value := value }

/-- One left-to-right pass of `value.replace(EXPRESSION_REGEX, cb)`: at each
position, if the regex matches there, the callback re-matches the matched text
against the anchored regex and substitutes `String(expression.value)`;
otherwise the character is copied and scanning resumes at the next position.
The fuel argument only bounds recursion depth; it is `s.length` at entry and
never runs out (each step consumes at least one character). -/
def replaceExprsF (ctx : ParameterContext) : Nat → List Char → List Char
  | 0, s => s
  | _, [] => []
  | fuel + 1, c :: rest =>
    match matchExprAt (c :: rest) with
    | some (m, r) =>
      (match matchExprAt m.full with
       | some (m2, []) => (jsToString (parseExpression ctx m2).value).data
       | _ => m.full) ++ replaceExprsF ctx fuel r
    | none => c :: replaceExprsF ctx fuel rest

/-- `value.replace(EXPRESSION_REGEX, cb)` over a whole character list. -/
def replaceExprs (ctx : ParameterContext) (s : List Char) : List Char :=
  replaceExprsF ctx s.length s

/-- `ParameterBinder.resolveString`: a string that is exactly one expression
resolves to the expression's value with its native type; otherwise every
match inside the string is replaced by its string coercion. -/
def resolveString (ctx : ParameterContext) (value : String) : JsValue :=
  match matchExprAt value.data with
  | some (m, []) => (parseExpression ctx m).value
  | _ => .str ⟨replaceExprs ctx value.data⟩

mutual
/-- `ParameterBinder.resolve`: strings go through `resolveString`, arrays and
objects resolve recursively, object keys whose resolved value is the omit
marker are dropped, every other value is returned unchanged. -/
def resolve (ctx : ParameterContext) : JsValue → JsValue
  | .str s => resolveString ctx s
  | .arr xs => .arr (resolveArr ctx xs)
  | .obj fs => .obj (resolveFields ctx fs)
  | v => v

/-- Element-wise resolution of an array (`value.map(item => this.resolve(item))`). -/
def resolveArr (ctx : ParameterContext) : JsArr → JsArr
  | .nil => .nil
  | .cons v t => .cons (resolve ctx v) (resolveArr ctx t)

/-- Entry-wise resolution of an object, dropping keys that resolve to the
omit marker. -/
def resolveFields (ctx : ParameterContext) : JsObj → JsObj
  | .nil => .nil
  | .cons k v t =>
    match resolve ctx v with
    | .omitted => resolveFields ctx t
    | rv => .cons k rv (resolveFields ctx t)
end

example :
    resolve { args := .cons "x" (.num 25) .nil, env := [] }
      (.str "\x7bargs.x\x7d") = .num 25 := by decide
example :
    resolve { args := .cons "x" (.num 25) .nil, env := [] }
      (.str "limit=\x7bargs.x\x7d") = .str "limit=25" := by decide
example :
    resolve { args := .nil, env := [] }
      (.str "\x7bargs.limit || 25\x7d") = .num 25 := by decide
example :
    resolve { args := .cons "limit" (.num 10) .nil, env := [] }
      (.str "\x7bargs.limit || 25\x7d") = .num 10 := by decide
example :
    resolve { args := .nil, env := [] }
      (.obj (.cons "a" (.str "\x7bargs.opt?\x7d") (.cons "b" (.num 1) .nil))) =
      .obj (.cons "b" (.num 1) .nil) := by decide

/-! ## Placeholder tokens and URL building (`RequestHandler.ts`) -/

/-- One left-to-right pass of the global regex `\{[^}]+\}` (the unresolved-
placeholder scan of `buildUrl` and the placeholder extraction of
`validateConfiguration`), returning the contents of every match in order.
The accumulator state holds the characters seen since the unmatched `{`
currently being extended, if any. -/
def scanTokens : Option (List Char) → List Char → List (List Char)
  | _, [] => []
  | none, c :: rest =>
    if c = lbrace then scanTokens (some []) rest else scanTokens none rest
  | some acc, c :: rest =>
    if c = rbrace then
      if acc = [] then scanTokens none rest
      else acc :: scanTokens none rest
    else scanTokens (some (acc ++ [c])) rest

/-- All `\{[^}]+\}` matches of `s`, listed without their braces. -/
def matchTokens (s : List Char) : List (List Char) := matchTokens.go s
where go := scanTokens none

/-- `s` contains a substring matching `\{[^}]+\}` (the declarative reading of
"an unresolved `{…}` token remains"). -/
def ContainsToken (s : List Char) : Prop :=
  ∃ a w b, w ≠ [] ∧ rbrace ∉ w ∧ s = a ++ lbrace :: (w ++ rbrace :: b)

/-- JS `String.prototype.replace` with a plain (non-regex) pattern: replace
the first occurrence of `pat`, if any. (The JS `$`-substitution patterns in
the replacement never arise in the engine: replacements are
percent-encoded, hence `$`-free.) -/
def replaceFirst : List Char → List Char → List Char → List Char
  | [], _, _ => []
  | c :: rest, pat, rep =>
    if isPrefixList pat (c :: rest) then rep ++ (c :: rest).drop pat.length
    else c :: replaceFirst rest pat rep

/-- String version of `replaceFirst`. -/
def replaceFirstS (s pat rep : String) : String :=
  ⟨replaceFirst s.data pat.data rep.data⟩

/-- The token `{name}` as a character list. -/
def braceTok (nm : List Char) : List Char := lbrace :: (nm ++ [rbrace])

/-- The HTTP methods of a tool definition. -/
inductive HttpMethod where
  | get | post | put | patch | delete
deriving DecidableEq

/-- Lower-case rendering (`tool.method.toLowerCase()`). -/
def methodLower : HttpMethod → String
  | .get => "get" | .post => "post" | .put => "put"
  | .patch => "patch" | .delete => "delete"

/-- The JSON-Schema types of the configuration format. -/
inductive SchemaType where
  | string | number | integer | boolean | array | object | nullType
deriving DecidableEq

/-- Rendering of a schema type as it appears in error messages. -/
def schemaTypeName : SchemaType → String
  | .string => "string" | .number => "number" | .integer => "integer"
  | .boolean => "boolean" | .array => "array" | .object => "object"
  | .nullType => "null"

mutual
/-- A `JsonSchemaProperty` of the configuration format. `enumVals`, bounds and
length constraints are `none` when absent; `pattern` abstracts
`new RegExp(p).test` as the boolean predicate it denotes (no modeled behavior
evaluates a concrete pattern). -/
inductive PropSchema where
  | mk : SchemaType → Option JsArr → Option ℚ → Option ℚ → Option Nat → Option Nat →
      Option (String → Bool) → OptPropSchema → PropFields → PropSchema

/-- An optional nested schema (`items`). -/
inductive OptPropSchema where
  | none : OptPropSchema
  | some : PropSchema → OptPropSchema

/-- The `properties` mapping of an object schema, in declaration order. -/
inductive PropFields where
  | nil : PropFields
  | cons : String → PropSchema → PropFields → PropFields
end

/-- The declared `type` of a property schema. -/
def PropSchema.ty : PropSchema → SchemaType
  | .mk t _ _ _ _ _ _ _ _ => t

/-- The declared `enum` list of a property schema. -/
def PropSchema.enumVals : PropSchema → Option JsArr
  | .mk _ e _ _ _ _ _ _ _ => e

/-- The declared `minimum` of a property schema. -/
def PropSchema.minimum : PropSchema → Option ℚ
  | .mk _ _ mn _ _ _ _ _ _ => mn

/-- The declared `maximum` of a property schema. -/
def PropSchema.maximum : PropSchema → Option ℚ
  | .mk _ _ _ mx _ _ _ _ _ => mx

/-- The declared `minLength` of a property schema. -/
def PropSchema.minLength : PropSchema → Option Nat
  | .mk _ _ _ _ ml _ _ _ _ => ml

/-- The declared `maxLength` of a property schema. -/
def PropSchema.maxLength : PropSchema → Option Nat
  | .mk _ _ _ _ _ ml _ _ _ => ml

/-- The declared `pattern` of a property schema, as the predicate its regex
denotes. -/
def PropSchema.patternTest : PropSchema → Option (String → Bool)
  | .mk _ _ _ _ _ _ p _ _ => p

/-- The declared `items` schema of an array schema. -/
def PropSchema.items : PropSchema → OptPropSchema
  | .mk _ _ _ _ _ _ _ it _ => it

/-- The declared `properties` of an object schema. -/
def PropSchema.properties : PropSchema → PropFields
  | .mk _ _ _ _ _ _ _ _ ps => ps

/-- Replace the top-level `enum` of a property schema (used only to state
that validation of non-enum-checked types ignores the declared enum). -/
def setEnum : PropSchema → Option JsArr → PropSchema
  | .mk t _ mn mx ml xl p it ps, e => .mk t e mn mx ml xl p it ps

/-- Lookup in a `properties` mapping. -/
def lookupProp : PropFields → String → OptPropSchema
  | .nil, _ => .none
  | .cons k s t, key => if k = key then .some s else lookupProp t key

/-- The `inputSchema` of a tool (the fields the modeled engine reads:
`type`, `properties`, `required`; the remaining declared fields are not
consulted by any modeled operation). -/
structure InputSchema where
  ty : SchemaType
  properties : Option PropFields
  required : Option (List String)

/-- A `ToolDefinition` of the configuration format. -/
structure ToolDef where
  name : String
  description : String
  method : HttpMethod
  path : String
  pathParams : Option JsObj
  queryParams : Option JsObj
  headers : Option JsObj
  bodyTemplate : Option JsValue
  responseTransform : Option String
  inputSchema : InputSchema

/-- The data carried by a thrown `ParameterBindingError`. -/
structure BindingError where
  message : String
  expression : Option String
  parameter : Option String
deriving DecidableEq

/-- `Array.prototype.join(", ")`. -/
def joinCommaSpace : List String → String
  | [] => ""
  | [s] => s
  | s :: t => s ++ ", " ++ joinCommaSpace t

/-- The substitution loop of `RequestHandler.buildUrl`: for each resolved
path-parameter entry in insertion order, if its value is neither `undefined`
nor `null`, replace the first occurrence of the literal token `{param}` in
the current URL by `encodeURIComponent(String(value))`. -/
def substPathParams : String → JsObj → String
  | url, .nil => url
  | url, .cons p v t =>
    substPathParams
      (match v with
       | .undef => url
       | .null => url
       | w => replaceFirstS url ⟨braceTok p.data⟩ (encodeURIComponent (jsToString w)))
      t

/-- The URL after resolving `pathParams` and substituting them into the path
template (the state of `url` in `buildUrl` just before the unresolved-
placeholder scan). -/
def substitutedUrl (tool : ToolDef) (ctx : ParameterContext) : String :=
  match tool.pathParams with
  | none => tool.path
  | some pp => substPathParams tool.path (resolveFields ctx pp)

/-- A remaining `{…}` token wrapped back in its braces, as it appears in the
error of `buildUrl`. -/
def tokenWithBraces (w : List Char) : String := ⟨braceTok w⟩

/-- `RequestHandler.buildUrl`: substitute path parameters, then fail on any
remaining `\{[^}]+\}` token, naming all of them in the message and the first
of them in the `parameter` field. -/
def buildUrl (tool : ToolDef) (ctx : ParameterContext) : Except BindingError String :=
  let url := substitutedUrl tool ctx
  match matchTokens url.data with
  | [] => .ok url
  | t :: ts =>
    .error { message := "Unresolved path parameters: " ++
               joinCommaSpace ((t :: ts).map tokenWithBraces),
             expression := none,
             parameter := some (tokenWithBraces t) }

/-- `RequestHandler.cleanParams`: drop query parameters whose resolved value
is `undefined`, `null` or the empty string. -/
def cleanParams : JsObj → JsObj
  | .nil => .nil
  | .cons k v t =>
    match v with
    | .undef => cleanParams t
    | .null => cleanParams t
    | .str s => if s = "" then cleanParams t else .cons k (.str s) (cleanParams t)
    | w => .cons k w (cleanParams t)

/-- The axios request configuration assembled by
`RequestHandler.buildRequestConfig`. -/
structure RequestConfig where
  method : String
  url : String
  headers : JsObj
  params : JsObj
  bodyData : Option JsValue
deriving DecidableEq

/-- `RequestHandler.buildRequestConfig`: build the URL (which may fail),
resolve headers and query parameters, and attach the resolved body template
for POST/PUT/PATCH only (a falsy — empty-string — template is skipped). -/
def buildRequestConfig (tool : ToolDef) (ctx : ParameterContext) :
    Except BindingError RequestConfig :=
  match buildUrl tool ctx with
  | .error e => .error e
  | .ok url =>
    .ok { method := methodLower tool.method
          url := url
          headers :=
            match tool.headers with
            | some hs => resolveFields ctx hs
            | none => .nil
          params :=
            match tool.queryParams with
            | some qs => cleanParams (resolveFields ctx qs)
            | none => .nil
          bodyData :=
            if tool.method = .post ∨ tool.method = .put ∨ tool.method = .patch then
              match tool.bodyTemplate with
              | some b => if b = .str "" then none else some (resolve ctx b)
              | none => none
            else none }

/-- A transport-level successful HTTP response as the engine observes it. -/
structure HttpResponse where
  status : Nat
  statusText : String
  body : JsValue
  headers : List (String × String)

/-- Lookup in a string-to-string header map. -/
def lookupStr : List (String × String) → String → Option String
  | [], _ => none
  | (k, v) :: t, key => if k = key then some v else lookupStr t key

/-- The fixed header subset `extractRelevantHeaders` keeps. -/
def relevantHeaderNames : List String :=
  ["content-type", "content-length", "x-ratelimit-limit",
   "x-ratelimit-remaining", "x-ratelimit-reset"]

/-- `RequestHandler.extractRelevantHeaders` (a falsy — empty — header value is
skipped). -/
def extractRelevantHeaders (headers : List (String × String)) :
    List (String × String) :=
  relevantHeaderNames.filterMap fun h =>
    match lookupStr headers h with
    | some v => if v = "" then none else some (h, v)
    | none => none

/-- Lookup of a present key in an object. -/
def objGetOpt : JsObj → String → Option JsValue
  | .nil, _ => none
  | .cons k v t, key => if k = key then some v else objGetOpt t key

/-- Indexing a JS array. -/
def arrGet : JsArr → Nat → Option JsValue
  | .nil, _ => none
  | .cons v _, 0 => some v
  | .cons _ t, n + 1 => arrGet t n

/-- A canonical array-index string (the strings `p` that name an own index
property of a JS array, when small enough). -/
def parseArrayIndex (p : List Char) : Option Nat :=
  if p ≠ [] ∧ p.all Char.isDigit ∧ (p.head? = some (Char.ofNat 48) → p = [Char.ofNat 48])
  then some (digitsToNat p) else none

/-- The string-keyed own property names of `Object.prototype` other than the
`__proto__` accessor (ECMAScript, including the Annex B getter/setter
utilities): every plain object and array inherits these, so each of them
satisfies the `in` operator on any JSON object; all are function-valued. -/
def objProtoNames : List String :=
  ["constructor", "hasOwnProperty", "isPrototypeOf", "propertyIsOwnEnumerable",
   "toLocaleString", "toString", "valueOf",
   "__defineGetter__", "__defineSetter__", "__lookupGetter__",
   "__lookupSetter__"]

/-- The string-keyed own property names of `Array.prototype` other than
`length` and `constructor` (ECMAScript 2023): all of them are method
(function-valued) properties, and every JSON array inherits them. -/
def arrProtoMethodNames : List String :=
  ["at", "concat", "copyWithin", "entries", "every", "fill", "filter",
   "find", "findIndex", "findLast", "findLastIndex", "flat", "flatMap",
   "forEach", "includes", "indexOf", "join", "keys", "lastIndexOf", "map",
   "pop", "push", "reduce", "reduceRight", "reverse", "shift", "slice",
   "some", "sort", "splice", "toLocaleString", "toReversed", "toSorted",
   "toSpliced", "toString", "unshift", "values", "with"]

/-- A value reachable by the response-path walk: a JSON value, a builtin
prototype-inherited function, `Object.prototype`, or `Array.prototype`. The
last three lie outside the JSON grammar but are reachable through the JS `in`
operator (inherited method names and the `__proto__` accessor). All builtin
function values are collapsed into one constructor: the walk treats every
function identically (`typeof` is `'function'`, so no further segment can
enter it), and which function was reached never influences the control flow
modeled here. -/
inductive RespVal where
  | js : JsValue → RespVal
  | builtinFn : RespVal
  | objProto : RespVal
  | arrProto : RespVal
deriving DecidableEq

/-- One step `result[part]` of the response-path walk; `none` models a failed
loop guard `result && typeof result === 'object' && part in result`. The
guard admits exactly the non-null objects and arrays (`null` is falsy;
primitives and functions fail the `typeof` test). For those, `part in result`
is property membership along the prototype chain: own properties are
consulted first (they shadow inherited ones) — an object's own keys, an
array's canonical in-range indices and its `length` — then the inherited
names: the prototype methods (function values) and the `__proto__` accessor,
which yields the prototype object itself (`Object.prototype.__proto__` is
`null`). -/
def respStep : RespVal → String → Option RespVal
  | .js (.obj fs), part =>
    match objGetOpt fs part with
    | some w => some (.js w)
    | none =>
      if part = "__proto__" then some .objProto
      else if part ∈ objProtoNames then some .builtinFn
      else none
  | .js (.arr xs), part =>
    if part = "length" then some (.js (.num (arrLength xs)))
    else
      match parseArrayIndex part.data with
      | some i =>
        match arrGet xs i with
        | some w => some (.js w)
        | none => none
      | none =>
        if part = "__proto__" then some .arrProto
        else if part = "constructor" ∨ part ∈ arrProtoMethodNames ∨
            part ∈ objProtoNames then some .builtinFn
        else none
  | .js _, _ => none
  | .builtinFn, _ => none
  | .objProto, part =>
    if part = "__proto__" then some (.js .null)
    else if part ∈ objProtoNames then some .builtinFn
    else none
  | .arrProto, part =>
    if part = "length" then some (.js (.num 0))
    else if part = "__proto__" then some .objProto
    else if part = "constructor" ∨ part ∈ arrProtoMethodNames ∨
        part ∈ objProtoNames then some .builtinFn
    else none

/-- The path walk of `RequestHandler.extractResponseData`: follow each `.`
separated segment with one `result[part]` step; `none` models the thrown
`Path not found` error. -/
def extractWalk : List (List Char) → RespVal → Option RespVal
  | [], r => some r
  | p :: ps, r =>
    match respStep r ⟨p⟩ with
    | some w => extractWalk ps w
    | none => none

/-- `RequestHandler.extractResponseData`. -/
def extractResponseData (body : JsValue) (path : String) : Option RespVal :=
  extractWalk (splitOnChar (Char.ofNat 46) path.data) (.js body)

example : extractResponseData
    (.obj (.cons "items" (.arr (.cons (.num 1) (.cons (.num 2) .nil))) .nil))
    "items.length" = some (.js (.num 2)) := rfl
example : extractResponseData
    (.obj (.cons "a" (.num 1) .nil)) "toString" = some .builtinFn := rfl
example : extractResponseData
    (.obj (.cons "a" (.num 1) .nil)) "__proto__.__proto__" =
    some (.js .null) := rfl
example : extractResponseData
    (.obj (.cons "items" (.arr (.cons (.num 1) .nil)) .nil)) "items.push" =
    some .builtinFn := rfl
example : extractResponseData
    (.obj (.cons "toString" (.num 3) .nil)) "toString" =
    some (.js (.num 3)) := rfl
example : extractResponseData
    (.obj (.cons "a" (.num 1) .nil)) "missing" = none := rfl
example : extractResponseData
    (.obj (.cons "a" (.num 1) .nil)) "toString.name" = none := rfl
example : extractResponseData
    (.obj (.cons "a" (.arr .nil) .nil)) "a.0" = none := rfl

/-- The `RequestResult` record returned by `RequestHandler` (the data slot
holds a walk value, since a response transform can project onto an inherited
prototype member). -/
structure RequestResult where
  success : Bool
  resData : Option RespVal
  error : Option String
  statusCode : Option Nat
  headers : Option (List (String × String))
deriving DecidableEq

/-- The diagnostic `processResponse` logs when a response transform fails. -/
def transformFailedWarning (tool : ToolDef) : String :=
  "Response transformation failed for tool " ++ tool.name ++ ":"

/-- `RequestHandler.processResponse`: apply the response transform when one is
configured (a falsy — empty — transform is skipped); if the path cannot be
resolved, keep the original data and emit the non-fatal diagnostic (second
component). The result is a success either way. -/
def processResponse (response : HttpResponse) (tool : ToolDef) :
    RequestResult × List String :=
  let dw : RespVal × List String :=
    match tool.responseTransform with
    | some t =>
      if t = "" then (.js response.body, [])
      else
        match extractResponseData response.body t with
        | some v => (v, [])
        | none => (.js response.body, [transformFailedWarning tool])
    | none => (.js response.body, [])
  ({ success := true, resData := some dw.1, error := none,
     statusCode := some response.status,
     headers := some (extractRelevantHeaders response.headers) }, dw.2)

/-- The `ParameterBindingError` branch of `RequestHandler.processError`. -/
def processBindingError (e : BindingError) : RequestResult :=
  { success := false, resData := none,
    error := "Parameter binding error: " ++ e.message,
    statusCode := some 400, headers := none }

/-- `RequestHandler.executeRequest`, with the HTTP transport abstracted as a
function from the built request configuration to the response (the
transport-failure branches of `processError` concern no modeled claim). The
second component is the list of non-fatal diagnostics emitted. -/
def executeRequest (tool : ToolDef) (args : JsObj) (env : List (String × String))
    (transport : RequestConfig → HttpResponse) : RequestResult × List String :=
  match buildRequestConfig tool { args := args, env := env } with
  | .error e => (processBindingError e, [])
  | .ok cfg => processResponse (transport cfg) tool

/-! ## Argument type validation (`ToolRegistry.ts`) -/

/-- The `minLength` check of the string branch (JS `schema.minLength && …`:
a zero bound is falsy and skipped). -/
def checkMinLength (schema : PropSchema) (s : String) (fieldName : String) :
    Option String :=
  match schema.minLength with
  | some m =>
    if m ≠ 0 ∧ s.length < m then
      some (fieldName ++ " must be at least " ++ toString m ++ " characters long")
    else none
  | none => none

/-- The `maxLength` check of the string branch (zero bound falsy, skipped). -/
def checkMaxLength (schema : PropSchema) (s : String) (fieldName : String) :
    Option String :=
  match schema.maxLength with
  | some m =>
    if m ≠ 0 ∧ s.length > m then
      some (fieldName ++ " must be at most " ++ toString m ++ " characters long")
    else none
  | none => none

/-- The `pattern` check of the string branch. -/
def checkPattern (schema : PropSchema) (s : String) (fieldName : String) :
    Option String :=
  match schema.patternTest with
  | some test =>
    if test s then none else some (fieldName ++ " does not match required pattern")
  | none => none

/-- The `enum` membership check (shared by the string and numeric branches;
JS: an empty enum array is truthy, so it rejects every value). -/
def checkEnum (schema : PropSchema) (v : JsValue) (fieldName : String) :
    Option String :=
  match schema.enumVals with
  | some es =>
    if arrIncludes es v then none
    else some (fieldName ++ " must be one of: " ++
      joinCommaSpace (enumToStrings es))
  | none => none
where
  /-- `schema.enum.join(", ")`. -/
  enumToStrings : JsArr → List String
    | .nil => []
    | .cons v t => (match v with
        | .null => ""
        | .undef => ""
        | w => jsToString w) :: enumToStrings t

/-- The `minimum` check of the numeric branch (`!== undefined`, so a zero
bound is checked). -/
def checkMinimum (schema : PropSchema) (q : ℚ) (fieldName : String) :
    Option String :=
  match schema.minimum with
  | some m =>
    if q < m then some (fieldName ++ " must be at least " ++ ratToString m)
    else none
  | none => none

/-- The `maximum` check of the numeric branch. -/
def checkMaximum (schema : PropSchema) (q : ℚ) (fieldName : String) :
    Option String :=
  match schema.maximum with
  | some m =>
    if q > m then some (fieldName ++ " must be at most " ++ ratToString m)
    else none
  | none => none

mutual
/-- `ToolRegistry.validateValueType`: first violation found in one value
against one property schema, or `none`. `null`/`undefined` values are never
flagged (handled by the required-arguments check); a schema `type` of `null`
has no switch case and accepts everything. -/
def validateValueType (value : JsValue) (schema : PropSchema) (fieldName : String) :
    Option String :=
  match value with
  | .undef => none
  | .null => none
  | v =>
    match schema.ty with
    | .string =>
      match v with
      | .str s =>
        checkMinLength schema s fieldName <|> checkMaxLength schema s fieldName <|>
        checkPattern schema s fieldName <|> checkEnum schema (.str s) fieldName
      | w => some (fieldName ++ " must be a string, got " ++ jsTypeof w)
    | .number =>
      match v with
      | .num q =>
        checkMinimum schema q fieldName <|> checkMaximum schema q fieldName <|>
        checkEnum schema (.num q) fieldName
      | _ => some (fieldName ++ " must be a number")
    | .integer =>
      match v with
      | .num q =>
        if q.den ≠ 1 then some (fieldName ++ " must be a integer")
        else
          checkMinimum schema q fieldName <|> checkMaximum schema q fieldName <|>
          checkEnum schema (.num q) fieldName
      | _ => some (fieldName ++ " must be a integer")
    | .boolean =>
      match v with
      | .boolean _ => none
      | w => some (fieldName ++ " must be a boolean, got " ++ jsTypeof w)
    | .array =>
      match v with
      | .arr xs =>
        match schema.items with
        | .some is => validateItems xs is fieldName 0
        | .none => none
      | w => some (fieldName ++ " must be an array, got " ++ jsTypeof w)
    | .object =>
      match v with
      | .obj fs => validateProps fs schema.properties fieldName
      | w => some (fieldName ++ " must be an object, got " ++ jsTypeof w)
    | .nullType => none

/-- The indexed `items` loop of the array branch: first violating element
stops the scan. -/
def validateItems (xs : JsArr) (is : PropSchema) (fieldName : String) (i : Nat) :
    Option String :=
  match xs with
  | .nil => none
  | .cons v t =>
    match validateValueType v is (fieldName ++ "[" ++ toString i ++ "]") with
    | some e => some e
    | none => validateItems t is fieldName (i + 1)

/-- The `Object.entries` loop of the object branch: entries without a declared
property schema are skipped; the first violating entry stops the scan. -/
def validateProps (fs : JsObj) (props : PropFields) (fieldName : String) :
    Option String :=
  match fs with
  | .nil => none
  | .cons k v t =>
    match lookupProp props k with
    | .some ps =>
      match validateValueType v ps (fieldName ++ "." ++ k) with
      | some e => some e
      | none => validateProps t props fieldName
    | .none => validateProps t props fieldName
end

/-- The argument loop of `ToolRegistry.validateArgumentTypes`: one entry in
the error list per violating top-level argument, in argument order. -/
def collectArgErrors : JsObj → PropFields → List String
  | .nil, _ => []
  | .cons k v t, props =>
    match lookupProp props k with
    | .none => collectArgErrors t props
    | .some ps =>
      match validateValueType v ps k with
      | some e => e :: collectArgErrors t props
      | none => collectArgErrors t props

/-- `ToolRegistry.validateArgumentTypes`. -/
def validateArgumentTypes (tool : ToolDef) (args : JsObj) : List String :=
  match tool.inputSchema.properties with
  | none => []
  | some props => collectArgErrors args props

mutual
/-- Modelled from the spec (§4.2 Schema Validator), for comparison with the
implementation: the COMPLETE list of structural violations of one value
against one property schema — every failed check contributes, every array
element and every nested property is scanned to the end. -/
def specViolations (value : JsValue) (schema : PropSchema) (fieldName : String) :
    List String :=
  match value with
  | .undef => []
  | .null => []
  | v =>
    match schema.ty with
    | .string =>
      match v with
      | .str s =>
        (checkMinLength schema s fieldName).toList ++
        (checkMaxLength schema s fieldName).toList ++
        (checkPattern schema s fieldName).toList ++
        (checkEnum schema (.str s) fieldName).toList
      | w => [fieldName ++ " must be a string, got " ++ jsTypeof w]
    | .number =>
      match v with
      | .num q =>
        (checkMinimum schema q fieldName).toList ++
        (checkMaximum schema q fieldName).toList ++
        (checkEnum schema (.num q) fieldName).toList
      | _ => [fieldName ++ " must be a number"]
    | .integer =>
      match v with
      | .num q =>
        if q.den ≠ 1 then [fieldName ++ " must be a integer"]
        else
          (checkMinimum schema q fieldName).toList ++
          (checkMaximum schema q fieldName).toList ++
          (checkEnum schema (.num q) fieldName).toList
      | _ => [fieldName ++ " must be a integer"]
    | .boolean =>
      match v with
      | .boolean _ => []
      | w => [fieldName ++ " must be a boolean, got " ++ jsTypeof w]
    | .array =>
      match v with
      | .arr xs =>
        match schema.items with
        | .some is => specItemViolations xs is fieldName 0
        | .none => []
      | w => [fieldName ++ " must be an array, got " ++ jsTypeof w]
    | .object =>
      match v with
      | .obj fs => specPropViolations fs schema.properties fieldName
      | w => [fieldName ++ " must be an object, got " ++ jsTypeof w]
    | .nullType => []

/-- Modelled from the spec: violations of every array element, indexed. -/
def specItemViolations (xs : JsArr) (is : PropSchema) (fieldName : String) (i : Nat) :
    List String :=
  match xs with
  | .nil => []
  | .cons v t =>
    specViolations v is (fieldName ++ "[" ++ toString i ++ "]") ++
    specItemViolations t is fieldName (i + 1)

/-- Modelled from the spec: violations of every declared nested property. -/
def specPropViolations (fs : JsObj) (props : PropFields) (fieldName : String) :
    List String :=
  match fs with
  | .nil => []
  | .cons k v t =>
    (match lookupProp props k with
     | .some ps => specViolations v ps (fieldName ++ "." ++ k)
     | .none => []) ++ specPropViolations t props fieldName
end

/-- Modelled from the spec: the complete violation list of an arguments
mapping against an input schema. -/
def specAllViolations (tool : ToolDef) (args : JsObj) : List String :=
  match tool.inputSchema.properties with
  | none => []
  | some props => spectAll args props
where
  spectAll : JsObj → PropFields → List String
    | .nil, _ => []
    | .cons k v t, props =>
      (match lookupProp props k with
       | .some ps => specViolations v ps k
       | .none => []) ++ spectAll t props

/-! ## Configuration validation (`McpServer.validateConfiguration`) -/

/-- The server metadata section of a configuration. -/
structure ServerMetadata where
  name : String
  version : String
  description : String

/-- The API section of a configuration. -/
structure ApiConfiguration where
  baseUrl : String
  timeout : Option Nat
  rejectUnauthorized : Option Bool
  headers : Option JsObj

/-- A parsed MCP server configuration. -/
structure McpServerConfig where
  server : ServerMetadata
  api : ApiConfiguration
  tools : List ToolDef

/-- `^[a-z][a-z0-9_-]*$` (the server-name check). -/
def serverNameOk (s : String) : Bool :=
  match s.data with
  | [] => false
  | c :: t =>
    c.isLower && t.all fun d =>
      d.isLower || d.isDigit || d = Char.ofNat 95 || d = Char.ofNat 45

/-- `^[a-z][a-z0-9_]*$` (the tool-name check). -/
def toolNameOk (s : String) : Bool :=
  match s.data with
  | [] => false
  | c :: t =>
    c.isLower && t.all fun d => d.isLower || d.isDigit || d = Char.ofNat 95

/-- The configuration error reported for a path placeholder with no
`pathParams` binding. -/
def missingPathParamMsg (placeholder toolName : String) : String :=
  "Missing pathParam for placeholder \"\x7b" ++ placeholder ++ "\x7d\" in tool \"" ++
    toolName ++ "\""

/-- The keys of a tool's `pathParams` mapping (`[]` when absent). -/
def pathParamKeys (t : ToolDef) : List String :=
  match t.pathParams with
  | some pp => objKeys pp
  | none => []

/-- The per-tool loop of `validateConfiguration`: duplicate-name errors
(against the set of names seen so far), name-format errors and one
missing-binding error per unmatched path placeholder, in order. -/
def toolValidationErrors : List String → List ToolDef → List String
  | _, [] => []
  | seen, t :: rest =>
    (if seen.contains t.name then ["Duplicate tool name: " ++ t.name] else []) ++
    (if toolNameOk t.name then []
     else ["Tool name \"" ++ t.name ++ "\" must be lowercase snake_case"]) ++
    ((matchTokens t.path.data).filterMap fun p =>
      if (pathParamKeys t).contains (⟨p⟩ : String) then none
      else some (missingPathParamMsg ⟨p⟩ t.name)) ++
    toolValidationErrors (t.name :: seen) rest

/-- The result record of `validateConfiguration`. -/
structure ConfigValidation where
  valid : Bool
  errors : List String
  warnings : List String
deriving DecidableEq

/-- `McpServer.validateConfiguration`, with the WHATWG URL parser (the
`new URL(baseUrl)` probe) abstracted as the boolean predicate `urlValid`. -/
def validateConfiguration (urlValid : String → Bool) (config : McpServerConfig) :
    ConfigValidation :=
  let errs :=
    (if serverNameOk config.server.name then []
     else ["Server name must be lowercase with hyphens or underscores"]) ++
    (if urlValid config.api.baseUrl then []
     else ["Invalid base URL in API configuration"]) ++
    toolValidationErrors [] config.tools
  { valid := errs.isEmpty, errors := errs, warnings := [] }

/-! ## The declarative reading of the response-transform walk -/

/-- C10: the enum constraint is enforced only for string, number and integer
schemas. For a schema of type boolean, array, object or null, the outcome of
validateValueType is entirely independent of the declared enum (so no
enum-membership violation is ever reported), a type-correct boolean value is
accepted outright, and under a null-typed schema every value is accepted
(there is no switch case for it). -/
theorem c10_enum_ignored_outside_scalar_types (sch : PropSchema) (f : String)
    (h : sch.ty = .boolean ∨ sch.ty = .array ∨ sch.ty = .object ∨ sch.ty = .nullType) :
    (∀ (v : JsValue) (e e' : Option JsArr),
      validateValueType v (setEnum sch e) f = validateValueType v (setEnum sch e') f) ∧
    (sch.ty = .boolean → ∀ b, validateValueType (.boolean b) sch f = none) ∧
    (sch.ty = .nullType → ∀ v, validateValueType v sch f = none) := by
  obtain ⟨t, e0, mn, mx, ml, xl, p, it, ps⟩ := sch
  simp only [PropSchema.ty] at h
  refine ⟨?_, ?_, ?_⟩
  · intro v e e'
    rcases h with h | h | h | h <;> subst h <;>
      cases v <;>
        simp [validateValueType, setEnum, PropSchema.ty, PropSchema.items,
          PropSchema.properties]
  · intro ht b
    simp only [PropSchema.ty] at ht
    subst ht
    simp [validateValueType, PropSchema.ty]
  · intro ht v
    simp only [PropSchema.ty] at ht
    subst ht
    cases v <;> simp [validateValueType, PropSchema.ty]

/-- C10 witness: a boolean-typed schema declaring the enum `[false]`
nevertheless accepts the type-correct value `true`, and its verdicts with and
without the enum agree on a concrete value. -/
theorem c10_enum_ignored_outside_scalar_types_witness :
    validateValueType (.boolean true)
      (.mk .boolean (some (.cons (.boolean false) .nil)) none none none none none .none .nil)
      "flag" = none ∧
    validateValueType (.boolean true)
      (setEnum (.mk .boolean none none none none none none .none .nil)
        (some (.cons (.boolean false) .nil))) "flag" =
    validateValueType (.boolean true)
      (setEnum (.mk .boolean none none none none none none .none .nil) none) "flag" := by
  constructor
  · exact (c10_enum_ignored_outside_scalar_types
      (.mk .boolean (some (.cons (.boolean false) .nil)) none none none none none .none .nil)
      "flag" (Or.inl rfl)).2.1 rfl true
  · exact (c10_enum_ignored_outside_scalar_types
      (.mk .boolean none none none none none none .none .nil)
      "flag" (Or.inl rfl)).1 (.boolean true)
      (some (.cons (.boolean false) .nil)) none

theorem collectArgErrors_eq_filterMap : ∀ (args : JsObj) (props : PropFields),
    collectArgErrors args props =
      (objEntries args).filterMap fun kv =>
        match lookupProp props kv.1 with
        | .some ps => validateValueType kv.2 ps kv.1
        | .none => none
  | .nil, _ => rfl
  | .cons k v t, props => by
    have ih := collectArgErrors_eq_filterMap t props
    cases hl : lookupProp props k with
    | none =>
      simp only [collectArgErrors, objEntries, List.filterMap_cons, hl]
      exact ih
    | some ps =>
      cases he : validateValueType v ps k with
      | none =>
        simp only [collectArgErrors, objEntries, List.filterMap_cons, hl, he]
        exact ih
      | some e =>
        simp only [collectArgErrors, objEntries, List.filterMap_cons, hl, he, ih]

/-- The schema `{type: integer}` with no further constraints. -/
def intItemSchema : PropSchema := .mk .integer none none none none none none .none .nil

/-- The schema `{type: array, items: {type: integer}}`. -/
def intArraySchema : PropSchema :=
  .mk .array none none none none none none (.some intItemSchema) .nil

/-- A concrete tool whose only argument `a` is an array of integers. -/
def toolC6 : ToolDef :=
  { name := "t6", description := "d", method := .get, path := "/x",
    pathParams := none, queryParams := none, headers := none, bodyTemplate := none,
    responseTransform := none,
    inputSchema :=
      { ty := .object,
        properties := some (.cons "a" intArraySchema .nil),
        required := none } }

/-- Arguments for `toolC6` in which BOTH elements of `a` violate the item
schema: two distinct structural violations exist in the mapping. -/
def argsC6 : JsObj :=
  .cons "a" (.arr (.cons (.boolean true) (.cons (.boolean true) .nil))) .nil

/-- C6 counterexample: the mapping `argsC6` has two distinct structural
violations (`a[0]` and `a[1]`, as the spec-modelled complete list shows), but
`validateArgumentTypes` returns only the first of them — the violation at
`a[1]` is missing from the returned list, refuting completeness of the
returned list for violations inside a single argument. -/
theorem c6_counterexample :
    validateArgumentTypes toolC6 argsC6 = ["a[0] must be a integer"] ∧
    specAllViolations toolC6 argsC6 =
      ["a[0] must be a integer", "a[1] must be a integer"] ∧
    "a[1] must be a integer" ∉ validateArgumentTypes toolC6 argsC6 := by
  refine ⟨rfl, rfl, ?_⟩
  have h : validateArgumentTypes toolC6 argsC6 = ["a[0] must be a integer"] := rfl
  rw [h]
  decide

/-- C6 amended: the type-validation step aggregates violations per TOP-LEVEL
argument — it returns exactly one entry (the first violation found inside
that argument's value) for each violating top-level argument, in argument
order; hence violations in distinct top-level arguments are all returned
together, but a second violation inside one argument's (possibly nested)
value is not reported. -/
theorem c6_amended_per_argument_aggregation (tool : ToolDef) (props : PropFields)
    (args : JsObj) (hp : tool.inputSchema.properties = some props) :
    validateArgumentTypes tool args =
      ((objEntries args).filterMap fun kv =>
        match lookupProp props kv.1 with
        | .some ps => validateValueType kv.2 ps kv.1
        | .none => none) ∧
    (∀ k v ps e, (k, v) ∈ objEntries args → lookupProp props k = .some ps →
      validateValueType v ps k = some e → e ∈ validateArgumentTypes tool args) := by
  have hchar : validateArgumentTypes tool args =
      (objEntries args).filterMap fun kv =>
        match lookupProp props kv.1 with
        | .some ps => validateValueType kv.2 ps kv.1
        | .none => none := by
    simp only [validateArgumentTypes, hp]
    exact collectArgErrors_eq_filterMap args props
  refine ⟨hchar, ?_⟩
  intro k v ps e hmem hl he
  rw [hchar]
  refine List.mem_filterMap.mpr ⟨(k, v), hmem, ?_⟩
  simp only [hl, he]

/-- A concrete tool with two scalar arguments, for the C6 witness. -/
def toolC6amd : ToolDef :=
  { name := "t6b", description := "d", method := .get, path := "/x",
    pathParams := none, queryParams := none, headers := none, bodyTemplate := none,
    responseTransform := none,
    inputSchema :=
      { ty := .object,
        properties := some (.cons "a" intItemSchema
          (.cons "b" (.mk .boolean none none none none none none .none .nil) .nil)),
        required := none } }

/-- Concrete arguments violating BOTH top-level arguments of `toolC6amd`. -/
def argsC6amd : JsObj := .cons "a" (.boolean true) (.cons "b" (.num 3) .nil)

/-- C6 amended witness: on a concrete mapping with violations in two distinct
top-level arguments, both violations appear in the returned list. -/
theorem c6_amended_per_argument_aggregation_witness :
    "a must be a integer" ∈ validateArgumentTypes toolC6amd argsC6amd ∧
    "b must be a boolean, got number" ∈ validateArgumentTypes toolC6amd argsC6amd := by
  constructor
  · exact (c6_amended_per_argument_aggregation toolC6amd _ argsC6amd rfl).2
      "a" (.boolean true) intItemSchema _ (by decide) rfl rfl
  · exact (c6_amended_per_argument_aggregation toolC6amd _ argsC6amd rfl).2
      "b" (.num 3) (.mk .boolean none none none none none none .none .nil) _
      (by decide) rfl rfl

theorem missingPathParamMsg_headChar (p n : String) :
    (missingPathParamMsg p n).data.head? = some (Char.ofNat 77) := by
  obtain ⟨pd⟩ := p; obtain ⟨nd⟩ := n; rfl

theorem dupMsg_headChar (n : String) :
    ("Duplicate tool name: " ++ n).data.head? = some (Char.ofNat 68) := by
  obtain ⟨nd⟩ := n; rfl

theorem toolNameMsg_headChar (n : String) :
    ("Tool name \"" ++ n ++ "\" must be lowercase snake_case").data.head? =
      some (Char.ofNat 84) := by
  obtain ⟨nd⟩ := n; rfl

theorem missingPathParamMsg_ne_dup (p n m : String) :
    missingPathParamMsg p n ≠ "Duplicate tool name: " ++ m := by
  intro h
  have h2 : (missingPathParamMsg p n).data.head? =
      ("Duplicate tool name: " ++ m).data.head? := by rw [h]
  rw [missingPathParamMsg_headChar, dupMsg_headChar] at h2
  exact absurd h2 (by decide)

theorem missingPathParamMsg_ne_toolName (p n m : String) :
    missingPathParamMsg p n ≠ "Tool name \"" ++ m ++ "\" must be lowercase snake_case" := by
  intro h
  have h2 : (missingPathParamMsg p n).data.head? =
      ("Tool name \"" ++ m ++ "\" must be lowercase snake_case").data.head? := by rw [h]
  rw [missingPathParamMsg_headChar, toolNameMsg_headChar] at h2
  exact absurd h2 (by decide)

theorem missingPathParamMsg_ne_serverName (p n : String) :
    missingPathParamMsg p n ≠ "Server name must be lowercase with hyphens or underscores" := by
  intro h
  have h2 : (missingPathParamMsg p n).data.head? =
      ("Server name must be lowercase with hyphens or underscores" : String).data.head? := by
    rw [h]
  rw [missingPathParamMsg_headChar] at h2
  exact absurd h2 (by decide)

theorem missingPathParamMsg_ne_badUrl (p n : String) :
    missingPathParamMsg p n ≠ "Invalid base URL in API configuration" := by
  intro h
  have h2 : (missingPathParamMsg p n).data.head? =
      ("Invalid base URL in API configuration" : String).data.head? := by rw [h]
  rw [missingPathParamMsg_headChar] at h2
  exact absurd h2 (by decide)

theorem toolValidationErrors_mem_of_missing : ∀ (seen : List String)
    (tools : List ToolDef) (t : ToolDef) (p : List Char), t ∈ tools →
    p ∈ matchTokens t.path.data → (⟨p⟩ : String) ∉ pathParamKeys t →
    missingPathParamMsg ⟨p⟩ t.name ∈ toolValidationErrors seen tools
  | _, [], _, _, ht, _, _ => absurd ht (by simp)
  | seen, t0 :: rest, t, p, ht, hp, hk => by
    rcases List.mem_cons.mp ht with rfl | ht2
    · simp only [toolValidationErrors, List.mem_append]
      refine Or.inl (Or.inr ?_)
      refine List.mem_filterMap.mpr ⟨p, hp, ?_⟩
      rw [if_neg]
      simpa [List.elem_iff] using hk
    · simp only [toolValidationErrors, List.mem_append]
      exact Or.inr (toolValidationErrors_mem_of_missing _ rest t p ht2 hp hk)

theorem toolValidationErrors_no_missing_msg : ∀ (seen : List String)
    (tools : List ToolDef),
    (∀ t ∈ tools, ∀ p ∈ matchTokens t.path.data, (⟨p⟩ : String) ∈ pathParamKeys t) →
    ∀ p n, missingPathParamMsg p n ∉ toolValidationErrors seen tools
  | _, [], _, _, _ => by simp [toolValidationErrors]
  | seen, t0 :: rest, hall, p, n => by
    intro hmem
    simp only [toolValidationErrors] at hmem
    rcases List.mem_append.mp hmem with hABC | hD
    · rcases List.mem_append.mp hABC with hAB | hC
      · rcases List.mem_append.mp hAB with hA | hB
        · rcases Decidable.em (seen.contains t0.name = true) with hs | hs
          · rw [if_pos hs] at hA
            exact missingPathParamMsg_ne_dup p n t0.name (List.mem_singleton.mp hA)
          · rw [if_neg hs] at hA
            simp at hA
        · rcases Decidable.em (toolNameOk t0.name = true) with ho | ho
          · rw [if_pos ho] at hB
            simp at hB
          · rw [if_neg ho] at hB
            exact missingPathParamMsg_ne_toolName p n t0.name (List.mem_singleton.mp hB)
      · have hnil : ((matchTokens t0.path.data).filterMap fun q =>
            if (pathParamKeys t0).contains (⟨q⟩ : String) then none
            else some (missingPathParamMsg ⟨q⟩ t0.name)) = [] := by
          refine List.filterMap_eq_nil_iff.mpr ?_
          intro q hq
          rw [if_pos]
          simpa [List.elem_iff] using hall t0 (List.mem_cons_self t0 rest) q hq
        rw [hnil] at hC
        simp at hC
    · exact toolValidationErrors_no_missing_msg (t0.name :: seen) rest
        (fun t ht => hall t (List.mem_cons_of_mem t0 ht)) p n hD

/-- C7: for every configuration (and any outcome of the abstracted URL-parse
probe), a tool whose path template contains a placeholder token with no
matching pathParams key makes validateConfiguration report the configuration
error naming the missing binding and renders the configuration invalid (so
the load is rejected before any call is dispatched); and when every
placeholder of every tool has a matching pathParams key, no
missing-pathParam error appears in the reported errors. -/
theorem c7_placeholders_checked_at_load (urlValid : String → Bool)
    (config : McpServerConfig) :
    (∀ t ∈ config.tools, ∀ p ∈ matchTokens t.path.data,
      (⟨p⟩ : String) ∉ pathParamKeys t →
      missingPathParamMsg ⟨p⟩ t.name ∈ (validateConfiguration urlValid config).errors ∧
      (validateConfiguration urlValid config).valid = false) ∧
    ((∀ t ∈ config.tools, ∀ p ∈ matchTokens t.path.data,
        (⟨p⟩ : String) ∈ pathParamKeys t) →
      ∀ p n, missingPathParamMsg p n ∉ (validateConfiguration urlValid config).errors) := by
  constructor
  · intro t ht p hp hk
    have hmem : missingPathParamMsg ⟨p⟩ t.name ∈ toolValidationErrors [] config.tools :=
      toolValidationErrors_mem_of_missing [] config.tools t p ht hp hk
    have hmem2 : missingPathParamMsg ⟨p⟩ t.name ∈
        (validateConfiguration urlValid config).errors := by
      simp only [validateConfiguration, List.mem_append]
      exact Or.inr hmem
    refine ⟨hmem2, ?_⟩
    simp only [validateConfiguration]
    rw [List.isEmpty_eq_false]
    exact List.ne_nil_of_mem (by simpa only [validateConfiguration] using hmem2)
  · intro hall p n hmem
    simp only [validateConfiguration, List.mem_append] at hmem
    rcases hmem with (hA | hB) | hC
    · rcases Decidable.em (serverNameOk config.server.name = true) with hs | hs
      · rw [if_pos hs] at hA; simp at hA
      · rw [if_neg hs] at hA
        exact missingPathParamMsg_ne_serverName p n (List.mem_singleton.mp hA)
    · rcases Decidable.em (urlValid config.api.baseUrl = true) with hu | hu
      · rw [if_pos hu] at hB; simp at hB
      · rw [if_neg hu] at hB
        exact missingPathParamMsg_ne_badUrl p n (List.mem_singleton.mp hB)
    · exact toolValidationErrors_no_missing_msg [] config.tools hall p n hC

/-- A tool whose path placeholder `{id}` has no pathParams binding. -/
def toolC7bad : ToolDef :=
  { name := "get_user", description := "d", method := .get,
    path := "/users/\x7bid\x7d", pathParams := none,
    queryParams := none, headers := none, bodyTemplate := none,
    responseTransform := none,
    inputSchema := { ty := .object, properties := none, required := none } }

/-- The same tool with the placeholder bound in pathParams. -/
def toolC7good : ToolDef :=
  { name := "get_user", description := "d", method := .get,
    path := "/users/\x7bid\x7d",
    pathParams := some (.cons "id" (.str "\x7bargs.id\x7d") .nil),
    queryParams := none, headers := none, bodyTemplate := none,
    responseTransform := none,
    inputSchema := { ty := .object, properties := none, required := none } }

/-- A configuration containing the unbound-placeholder tool. -/
def configC7bad : McpServerConfig :=
  { server := { name := "srv", version := "1.0.0", description := "d" },
    api := { baseUrl := "https://api.example.com", timeout := none,
             rejectUnauthorized := none, headers := none },
    tools := [toolC7bad] }

/-- The same configuration with the placeholder bound. -/
def configC7good : McpServerConfig :=
  { server := { name := "srv", version := "1.0.0", description := "d" },
    api := { baseUrl := "https://api.example.com", timeout := none,
             rejectUnauthorized := none, headers := none },
    tools := [toolC7good] }

/-- C7 witness: the concrete unbound-placeholder configuration is reported
invalid with the missing-binding error; the concrete bound configuration
produces no missing-pathParam error. -/
theorem c7_placeholders_checked_at_load_witness :
    (missingPathParamMsg "id" "get_user" ∈
        (validateConfiguration (fun _ => true) configC7bad).errors ∧
      (validateConfiguration (fun _ => true) configC7bad).valid = false) ∧
    (∀ p n, missingPathParamMsg p n ∉
      (validateConfiguration (fun _ => true) configC7good).errors) := by
  constructor
  · exact (c7_placeholders_checked_at_load (fun _ => true) configC7bad).1
      toolC7bad (List.mem_singleton.mpr rfl) "id".data (by decide) (by decide)
  · refine (c7_placeholders_checked_at_load (fun _ => true) configC7good).2 ?_
    intro t ht p hp
    rw [List.mem_singleton.mp ht] at hp ⊢
    rw [show matchTokens toolC7good.path.data = ["id".data] from rfl] at hp
    rw [List.mem_singleton.mp hp]
    decide

/-- The invariant relating the scanner state to the remaining input: either a
full `\{[^}]+\}` token still lies ahead, or the scanner is inside a token
whose closing brace lies ahead and whose contents are nonempty. -/
def ScanInv (s : List Char) (st : Option (List Char)) : Prop :=
  ContainsToken s ∨
    ∃ acc t b, st = some acc ∧ rbrace ∉ t ∧ s = t ++ rbrace :: b ∧ acc ++ t ≠ []

theorem scanTokens_ne_nil_of_inv : ∀ (s : List Char) (st : Option (List Char)),
    ScanInv s st → scanTokens st s ≠ []
  | [], _, h => by
    rcases h with ⟨a, w, b, _, _, habs⟩ | ⟨acc, t, b, _, _, habs, _⟩ <;>
      simp at habs
  | c :: rest, none, h => by
    rcases h with ⟨a, w, b, hw, hnw, hs⟩ | ⟨acc, t, b, hst, -, -, -⟩
    · cases a with
      | nil =>
        simp only [List.nil_append, List.cons.injEq] at hs
        obtain ⟨rfl, rfl⟩ := hs
        simp only [scanTokens, if_true]
        exact scanTokens_ne_nil_of_inv _ (some [])
          (Or.inr ⟨[], w, b, rfl, hnw, rfl, by simpa using hw⟩)
      | cons a0 a' =>
        simp only [List.cons_append, List.cons.injEq] at hs
        obtain ⟨rfl, rfl⟩ := hs
        have hrest : ContainsToken (a' ++ lbrace :: (w ++ rbrace :: b)) :=
          ⟨a', w, b, hw, hnw, rfl⟩
        simp only [scanTokens]
        by_cases hc : c = lbrace
        · rw [if_pos hc]
          exact scanTokens_ne_nil_of_inv _ (some []) (Or.inl hrest)
        · rw [if_neg hc]
          exact scanTokens_ne_nil_of_inv _ none (Or.inl hrest)
    · exact absurd hst (by simp)
  | c :: rest, some acc, h => by
    by_cases hc : c = rbrace
    · subst hc
      by_cases ha : acc = []
      · subst ha
        rcases h with ⟨a, w, b, hw, hnw, hs⟩ | ⟨acc2, t, b, hst, hnt, hs, hne⟩
        · cases a with
          | nil =>
            simp only [List.nil_append, List.cons.injEq] at hs
            exact absurd hs.1 (by decide)
          | cons a0 a' =>
            simp only [List.cons_append, List.cons.injEq] at hs
            obtain ⟨rfl, rfl⟩ := hs
            simp only [scanTokens, if_true]
            exact scanTokens_ne_nil_of_inv _ none (Or.inl ⟨a', w, b, hw, hnw, rfl⟩)
        · cases t with
          | nil =>
            simp only [Option.some.injEq] at hst
            simp [← hst] at hne
          | cons t0 t' =>
            simp only [List.cons_append, List.cons.injEq] at hs
            refine absurd ?_ hnt
            rw [hs.1]
            exact List.mem_cons_self t0 t'
      · simp only [scanTokens, if_true]
        rw [if_neg ha]
        simp
    · rcases h with ⟨a, w, b, hw, hnw, hs⟩ | ⟨acc2, t, b, hst, hnt, hs, hne⟩
      · cases a with
        | nil =>
          simp only [List.nil_append, List.cons.injEq] at hs
          obtain ⟨rfl, rfl⟩ := hs
          simp only [scanTokens]
          rw [if_neg hc]
          exact scanTokens_ne_nil_of_inv _ (some (acc ++ [lbrace]))
            (Or.inr ⟨acc ++ [lbrace], w, b, rfl, hnw, rfl, by simp⟩)
        | cons a0 a' =>
          simp only [List.cons_append, List.cons.injEq] at hs
          obtain ⟨rfl, rfl⟩ := hs
          simp only [scanTokens]
          rw [if_neg hc]
          exact scanTokens_ne_nil_of_inv _ (some (acc ++ [c]))
            (Or.inl ⟨a', w, b, hw, hnw, rfl⟩)
      · cases t with
        | nil =>
          simp only [List.nil_append, List.cons.injEq] at hs
          exact absurd hs.1 hc
        | cons t0 t' =>
          simp only [List.cons_append, List.cons.injEq] at hs
          obtain ⟨rfl, rfl⟩ := hs
          simp only [scanTokens]
          rw [if_neg hc]
          exact scanTokens_ne_nil_of_inv _ (some (acc ++ [c]))
            (Or.inr ⟨acc ++ [c], t', b, rfl,
              fun hmem => hnt (List.mem_cons_of_mem c hmem), rfl, by simp⟩)

theorem inv_of_scanTokens_ne_nil : ∀ (s : List Char) (st : Option (List Char)),
    scanTokens st s ≠ [] → ScanInv s st
  | [], st, h => by cases st <;> simp [scanTokens] at h
  | c :: rest, none, h => by
    simp only [scanTokens] at h
    by_cases hc : c = lbrace
    · rw [if_pos hc] at h
      rcases inv_of_scanTokens_ne_nil rest (some []) h with hct |
        ⟨acc, t, b, hst, hnt, hs, hne⟩
      · obtain ⟨a, w, b, hw, hnw, hs⟩ := hct
        exact Or.inl ⟨c :: a, w, b, hw, hnw, by rw [hs]; rfl⟩
      · obtain rfl : ([] : List Char) = acc := by injection hst
        refine Or.inl ⟨[], t, b, by simpa using hne, hnt, ?_⟩
        rw [hc, hs]
        rfl
    · rw [if_neg hc] at h
      rcases inv_of_scanTokens_ne_nil rest none h with hct | ⟨acc, t, b, hst, -, -, -⟩
      · obtain ⟨a, w, b, hw, hnw, hs⟩ := hct
        exact Or.inl ⟨c :: a, w, b, hw, hnw, by rw [hs]; rfl⟩
      · exact absurd hst (by simp)
  | c :: rest, some acc, h => by
    simp only [scanTokens] at h
    by_cases hc : c = rbrace
    · rw [if_pos hc] at h
      by_cases ha : acc = []
      · rw [if_pos ha] at h
        rcases inv_of_scanTokens_ne_nil rest none h with hct | ⟨acc2, t, b, hst, -, -, -⟩
        · obtain ⟨a, w, b, hw, hnw, hs⟩ := hct
          exact Or.inl ⟨c :: a, w, b, hw, hnw, by rw [hs]; rfl⟩
        · exact absurd hst (by simp)
      · rw [if_neg ha] at h
        refine Or.inr ⟨acc, [], rest, rfl, by simp, by rw [hc]; rfl, by simpa using ha⟩
    · rw [if_neg hc] at h
      rcases inv_of_scanTokens_ne_nil rest (some (acc ++ [c])) h with hct |
        ⟨acc2, t, b, hst, hnt, hs, hne⟩
      · obtain ⟨a, w, b, hw, hnw, hs⟩ := hct
        exact Or.inl ⟨c :: a, w, b, hw, hnw, by rw [hs]; rfl⟩
      · refine Or.inr ⟨acc, c :: t, b, rfl, ?_, by rw [hs]; rfl, by simp⟩
        intro hmem
        rcases List.mem_cons.mp hmem with h1 | h1
        · exact hc h1.symm
        · exact hnt h1

/-- Correctness of the unresolved-placeholder scan: the regex `\{[^}]+\}`
matches somewhere in `s` exactly when the scanner reports a token. -/
theorem matchTokens_ne_nil_iff (s : List Char) :
    matchTokens s ≠ [] ↔ ContainsToken s := by
  constructor
  · intro h
    rcases inv_of_scanTokens_ne_nil s none h with hct | ⟨acc, t, b, hst, -, -, -⟩
    · exact hct
    · exact absurd hst (by simp)
  · intro h
    exact scanTokens_ne_nil_of_inv s none (Or.inl h)

/-- A `{name}` token occurring as a substring (with nonempty, brace-free
name) witnesses `ContainsToken`. -/
theorem containsToken_of_braceTok {nm s : List Char} (h : braceTok nm <:+: s)
    (hne : nm ≠ []) (hnb : rbrace ∉ nm) : ContainsToken s := by
  obtain ⟨u, v, hs⟩ := h
  refine ⟨u, nm, v, hne, hnb, ?_⟩
  rw [← hs]
  simp [braceTok]

/-- C4: for every tool and call context, if after resolving and substituting
pathParams into the path template a `\{[^}]+\}` token remains, executing the
request fails with the ParameterBindingError naming the first offending token
(statusCode 400), and the result is the same for EVERY transport — no HTTP
request influences it; conversely, if no token remains, the request
configuration is built successfully (no unresolved-path error) and the call
proceeds to the transport. -/
theorem c4_unresolved_placeholder_aborts (tool : ToolDef) (args : JsObj)
    (env : List (String × String)) :
    (ContainsToken (substitutedUrl tool { args := args, env := env }).data →
      ∃ tok toks,
        matchTokens (substitutedUrl tool { args := args, env := env }).data =
          tok :: toks ∧
        ∀ transport, executeRequest tool args env transport =
          ({ success := false, resData := none,
             error := "Parameter binding error: " ++ ("Unresolved path parameters: " ++
               joinCommaSpace ((tok :: toks).map tokenWithBraces)),
             statusCode := some 400, headers := none }, [])) ∧
    (¬ ContainsToken (substitutedUrl tool { args := args, env := env }).data →
      ∃ cfg, buildRequestConfig tool { args := args, env := env } = .ok cfg ∧
        ∀ transport, executeRequest tool args env transport =
          processResponse (transport cfg) tool) := by
  constructor
  · intro h
    have hne := (matchTokens_ne_nil_iff
      (substitutedUrl tool { args := args, env := env }).data).mpr h
    cases htok : matchTokens (substitutedUrl tool { args := args, env := env }).data with
    | nil => exact absurd htok hne
    | cons tok toks =>
      refine ⟨tok, toks, rfl, fun transport => ?_⟩
      simp only [executeRequest, buildRequestConfig, buildUrl, htok, processBindingError]
  · intro h
    have htok : matchTokens (substitutedUrl tool { args := args, env := env }).data = [] := by
      by_contra hne
      exact h ((matchTokens_ne_nil_iff _).mp hne)
    refine ⟨{ method := methodLower tool.method,
              url := substitutedUrl tool { args := args, env := env },
              headers :=
                match tool.headers with
                | some hs => resolveFields { args := args, env := env } hs
                | none => .nil,
              params :=
                match tool.queryParams with
                | some qs => cleanParams (resolveFields { args := args, env := env } qs)
                | none => .nil,
              bodyData :=
                if tool.method = .post ∨ tool.method = .put ∨ tool.method = .patch then
                  match tool.bodyTemplate with
                  | some b =>
                    if b = .str "" then none
                    else some (resolve { args := args, env := env } b)
                  | none => none
                else none }, ?_, fun transport => ?_⟩
    · simp only [buildRequestConfig, buildUrl, htok]
    · simp only [executeRequest, buildRequestConfig, buildUrl, htok]

/-- C4 witness: on a concrete tool whose `{id}` placeholder survives
substitution, every transport sees the same binding failure; on a concrete
tool whose placeholder resolves, the request configuration is built. -/
theorem c4_unresolved_placeholder_aborts_witness :
    (∀ transport, executeRequest toolC7bad .nil [] transport =
      ({ success := false, resData := none,
         error := "Parameter binding error: Unresolved path parameters: \x7bid\x7d",
         statusCode := some 400, headers := none }, [])) ∧
    (∃ cfg, buildRequestConfig toolC7good
      { args := .cons "id" (.str "7") .nil, env := [] } = .ok cfg) := by
  constructor
  · intro transport
    obtain ⟨tok, toks, htok, hall⟩ :=
      (c4_unresolved_placeholder_aborts toolC7bad .nil []).1
        ((matchTokens_ne_nil_iff _).mp (by decide))
    rw [show matchTokens (substitutedUrl toolC7bad { args := .nil, env := [] }).data =
      ["id".data] from rfl] at htok
    injection htok with h1 h2
    subst h1
    subst h2
    rw [hall transport]
    decide
  · obtain ⟨cfg, hcfg, -⟩ :=
      (c4_unresolved_placeholder_aborts toolC7good (.cons "id" (.str "7") .nil) []).2
        (fun hct => (matchTokens_ne_nil_iff _).mpr hct (by decide))
    exact ⟨cfg, hcfg⟩

/-- A valid identifier of the expression grammar: `[a-zA-Z_][a-zA-Z0-9_]*`. -/
def validIdent (key : List Char) : Bool :=
  match key with
  | [] => false
  | c :: t => identStartChar c && t.all identChar

theorem takeIdentRest_append (w r : List Char) (hw : ∀ c ∈ w, identChar c = true)
    (hr : ∀ c, r.head? = some c → identChar c = false) :
    takeIdentRest (w ++ r) = (w, r) := by
  induction w with
  | nil =>
    cases r with
    | nil => rfl
    | cons c t =>
      simp only [List.nil_append, takeIdentRest]
      rw [if_neg]
      simp [hr c rfl]
  | cons c w' ih =>
    simp only [List.cons_append, takeIdentRest, List.append_eq]
    rw [if_pos (hw c (List.mem_cons_self c w')), ih (fun d hd => hw d (List.mem_cons_of_mem c hd))]

theorem takeIdent_append (key r : List Char) (hk : validIdent key = true)
    (hr : ∀ c, r.head? = some c → identChar c = false) :
    takeIdent (key ++ r) = some (key, r) := by
  cases key with
  | nil => simp [validIdent] at hk
  | cons c t =>
    simp only [validIdent, Bool.and_eq_true, List.all_eq_true] at hk
    simp only [List.cons_append, takeIdent]
    rw [if_pos hk.1, takeIdentRest_append t r (fun d hd => hk.2 d hd) hr]

theorem takeSpaces_not_space (r : List Char)
    (hr : ∀ c, r.head? = some c → isJsSpace c = false) :
    takeSpaces r = ([], r) := by
  cases r with
  | nil => rfl
  | cons c t =>
    simp only [takeSpaces]
    rw [if_neg]
    simp [hr c rfl]

theorem takeUntilRbrace_append (d r : List Char) (hd : rbrace ∉ d) :
    takeUntilRbrace (d ++ rbrace :: r) = some (d, r) := by
  induction d with
  | nil =>
    simp [takeUntilRbrace]
  | cons c t ih =>
    simp only [List.cons_append, takeUntilRbrace, List.append_eq]
    rw [if_neg (fun hc => hd (by rw [← hc]; exact List.mem_cons_self c t)),
      ih (fun hm => hd (List.mem_cons_of_mem c hm))]
    rfl

theorem matchKind_args (r : List Char) :
    matchKind ('a' :: ('r' :: ('g' :: ('s' :: r)))) = some ("args", r) := rfl


/-- The character-list form of the expression `{args.KEY}`. -/
def argsTok (key : List Char) : List Char :=
  lbrace :: ("args".data ++ Char.ofNat 46 :: (key ++ [rbrace]))

theorem matchExprAt_args_plain (key tail : List Char) (hk : validIdent key = true) :
    matchExprAt (argsTok key ++ tail) =
      some ({ full := argsTok key, kind := "args", key := key, defaultRaw := none },
        tail) := by
  have hassoc : argsTok key ++ tail =
      lbrace :: ('a' :: ('r' :: ('g' :: ('s' ::
        (Char.ofNat 46 :: (key ++ rbrace :: tail)))))) := by
    simp [argsTok]
  rw [hassoc]
  have h2 : takeIdent (key ++ rbrace :: tail) = some (key, rbrace :: tail) :=
    takeIdent_append key _ hk (by
      intro c hc
      injection hc with h
      rw [← h]
      decide)
  have e2 : ¬ (rbrace = Char.ofNat 63) := by decide
  have h3 : takeSpaces (rbrace :: tail) = ([], rbrace :: tail) := by
    simp [takeSpaces]
    decide
  simp only [matchExprAt, matchKind_args, h2]
  simp [argsTok, e2, h3]

theorem takeIdentRest_length (s : List Char) : (takeIdentRest s).2.length ≤ s.length := by
  induction s with
  | nil => simp [takeIdentRest]
  | cons c t ih =>
    simp only [takeIdentRest]
    split
    · simpa using Nat.le_succ_of_le ih
    · simp

theorem takeSpaces_length (s : List Char) : (takeSpaces s).2.length ≤ s.length := by
  induction s with
  | nil => simp [takeSpaces]
  | cons c t ih =>
    simp only [takeSpaces]
    split
    · simpa using Nat.le_succ_of_le ih
    · simp

theorem takeIdent_length (s : List Char) (key r : List Char)
    (h : takeIdent s = some (key, r)) : r.length < s.length := by
  cases s with
  | nil => simp [takeIdent] at h
  | cons c t =>
    simp only [takeIdent] at h
    split at h
    · injection h with h1
      obtain ⟨-, rfl⟩ : key = c :: (takeIdentRest t).1 ∧ r = (takeIdentRest t).2 := by
        constructor <;> [exact (congrArg Prod.fst h1).symm; exact (congrArg Prod.snd h1).symm]
      exact Nat.lt_succ_of_le (takeIdentRest_length t)
    · simp at h

theorem takeUntilRbrace_length (s d r : List Char)
    (h : takeUntilRbrace s = some (d, r)) : r.length < s.length := by
  induction s generalizing d r with
  | nil => simp [takeUntilRbrace] at h
  | cons c t ih =>
    simp only [takeUntilRbrace] at h
    split at h
    · injection h with h1
      have : r = t := (congrArg Prod.snd h1).symm
      simp [this]
    · cases hu : takeUntilRbrace t with
      | none => rw [hu] at h; simp at h
      | some p =>
        rw [hu] at h
        have h2 : some ((c :: p.1, p.2) : List Char × List Char) = some (d, r) := h
        injection h2 with h3
        have hr : r = p.2 := (congrArg Prod.snd h3).symm
        rw [hr]
        exact Nat.lt_succ_of_lt (ih p.1 p.2 (by rw [hu]))

theorem matchKind_length (s : List Char) (k : String) (r : List Char)
    (h : matchKind s = some (k, r)) : r.length ≤ s.length := by
  simp only [matchKind] at h
  split at h
  · injection h with h1
    have hr : r = s.drop 4 := (congrArg Prod.snd h1).symm
    simp [hr]
  · split at h
    · injection h with h1
      have hr : r = s.drop 3 := (congrArg Prod.snd h1).symm
      simp [hr]
    · simp at h

theorem matchExprAt_shrinks (s : List Char) (m : ExprMatch) (r : List Char)
    (h : matchExprAt s = some (m, r)) : r.length < s.length := by
  cases s with
  | nil => simp [matchExprAt] at h
  | cons c r1 =>
    simp only [matchExprAt] at h
    split at h
    · cases hk : matchKind r1 with
      | none => rw [hk] at h; simp at h
      | some kr =>
        obtain ⟨kind, r2⟩ := kr
        rw [hk] at h
        have hl2 : r2.length ≤ r1.length := matchKind_length r1 kind r2 hk
        cases r2 with
        | nil => simp at h
        | cons d r3 =>
          simp only [List.length_cons] at hl2
          simp only at h
          split at h
          · cases hi : takeIdent r3 with
            | none => rw [hi] at h; simp at h
            | some keyr =>
              obtain ⟨key, r4⟩ := keyr
              rw [hi] at h
              have hl4 : r4.length < r3.length := takeIdent_length r3 key r4 hi
              simp only at h
              cases r4 with
              | nil => simp [takeSpaces] at h
              | cons q r5 =>
                simp only [List.length_cons] at hl4
                simp only at h
                by_cases hq : q = Char.ofNat 63
                · rw [if_pos hq] at h
                  simp only at h
                  cases hs2 : (takeSpaces r5).2 with
                  | nil => rw [hs2] at h; simp at h
                  | cons e1 r7 =>
                    rw [hs2] at h
                    simp only at h
                    have hsl : (takeSpaces r5).2.length ≤ r5.length :=
                      takeSpaces_length r5
                    rw [hs2] at hsl
                    simp only [List.length_cons] at hsl
                    split at h
                    · injection h with h1
                      have hr : r = r7 := (congrArg Prod.snd h1).symm
                      subst hr
                      simp only [List.length_cons]
                      omega
                    · split at h
                      · cases r7 with
                        | nil => simp at h
                        | cons e2 r8 =>
                          simp only at h
                          split at h
                          · cases hu : takeUntilRbrace (takeSpaces r8).2 with
                            | none => rw [hu] at h; simp at h
                            | some dr =>
                              obtain ⟨dflt, r9⟩ := dr
                              rw [hu] at h
                              have hul : r9.length < (takeSpaces r8).2.length :=
                                takeUntilRbrace_length _ dflt r9 hu
                              have hsl8 : (takeSpaces r8).2.length ≤ r8.length :=
                                takeSpaces_length r8
                              simp only at h
                              split at h
                              · simp at h
                              · injection h with h1
                                have hr : r = r9 := (congrArg Prod.snd h1).symm
                                subst hr
                                simp only [List.length_cons] at hsl hul hsl8 ⊢
                                omega
                          · simp at h
                      · simp at h
                · rw [if_neg hq] at h
                  simp only at h
                  cases hs2 : (takeSpaces (q :: r5)).2 with
                  | nil => rw [hs2] at h; simp at h
                  | cons e1 r7 =>
                    rw [hs2] at h
                    simp only at h
                    have hsl : (takeSpaces (q :: r5)).2.length ≤ (q :: r5).length :=
                      takeSpaces_length (q :: r5)
                    rw [hs2] at hsl
                    simp only [List.length_cons] at hsl
                    split at h
                    · injection h with h1
                      have hr : r = r7 := (congrArg Prod.snd h1).symm
                      subst hr
                      simp only [List.length_cons]
                      omega
                    · split at h
                      · cases r7 with
                        | nil => simp at h
                        | cons e2 r8 =>
                          simp only at h
                          split at h
                          · cases hu : takeUntilRbrace (takeSpaces r8).2 with
                            | none => rw [hu] at h; simp at h
                            | some dr =>
                              obtain ⟨dflt, r9⟩ := dr
                              rw [hu] at h
                              have hul : r9.length < (takeSpaces r8).2.length :=
                                takeUntilRbrace_length _ dflt r9 hu
                              have hsl8 : (takeSpaces r8).2.length ≤ r8.length :=
                                takeSpaces_length r8
                              simp only at h
                              split at h
                              · simp at h
                              · injection h with h1
                                have hr : r = r9 := (congrArg Prod.snd h1).symm
                                subst hr
                                simp only [List.length_cons] at hsl hul hsl8 ⊢
                                omega
                          · simp at h
                      · simp at h
          · simp at h
    · simp at h

theorem replaceExprsF_irrel (ctx : ParameterContext) :
    ∀ (f1 : Nat) (s : List Char) (f2 : Nat), s.length ≤ f1 → s.length ≤ f2 →
    replaceExprsF ctx f1 s = replaceExprsF ctx f2 s
  | f1, [], f2, _, _ => by cases f1 <;> cases f2 <;> rfl
  | 0, c :: rest, _, h1, _ => by simp at h1
  | _ + 1, c :: rest, 0, _, h2 => by simp at h2
  | f1 + 1, c :: rest, f2 + 1, h1, h2 => by
    simp only [List.length_cons, Nat.add_le_add_iff_right] at h1 h2
    simp only [replaceExprsF]
    cases hm : matchExprAt (c :: rest) with
    | none =>
      exact congrArg (c :: ·) (replaceExprsF_irrel ctx f1 rest f2 h1 h2)
    | some mr =>
      obtain ⟨m, r⟩ := mr
      have hlt : r.length < rest.length + 1 := matchExprAt_shrinks _ m r hm
      exact congrArg (_ ++ ·) (replaceExprsF_irrel ctx f1 r f2
        (by omega) (by omega))

theorem replaceExprs_cons_nomatch (ctx : ParameterContext) (c : Char)
    (rest : List Char) (h : matchExprAt (c :: rest) = none) :
    replaceExprs ctx (c :: rest) = c :: replaceExprs ctx rest := by
  unfold replaceExprs
  simp only [List.length_cons, replaceExprsF, h]

theorem replaceExprs_match (ctx : ParameterContext) (s : List Char) (m : ExprMatch)
    (r : List Char) (h : matchExprAt s = some (m, r)) :
    replaceExprs ctx s =
      (match matchExprAt m.full with
       | some (m2, []) => (jsToString (parseExpression ctx m2).value).data
       | _ => m.full) ++ replaceExprs ctx r := by
  cases s with
  | nil => simp [matchExprAt] at h
  | cons c rest =>
    have hlt : r.length < rest.length + 1 := matchExprAt_shrinks _ m r h
    unfold replaceExprs
    simp only [List.length_cons, replaceExprsF, h]
    exact congrArg (_ ++ ·) (replaceExprsF_irrel ctx rest.length r r.length
      (by omega) le_rfl)

theorem matchExprAt_none_of_head_ne (c : Char) (rest : List Char) (hc : c ≠ lbrace) :
    matchExprAt (c :: rest) = none := by
  simp [matchExprAt, hc]

theorem replaceExprs_append_noLbrace (ctx : ParameterContext) :
    ∀ (p rest : List Char), (∀ c ∈ p, c ≠ lbrace) →
    replaceExprs ctx (p ++ rest) = p ++ replaceExprs ctx rest
  | [], rest, _ => by simp
  | c :: p', rest, hp => by
    rw [List.cons_append,
      replaceExprs_cons_nomatch ctx c (p' ++ rest)
        (matchExprAt_none_of_head_ne c _ (hp c (List.mem_cons_self c p'))),
      replaceExprs_append_noLbrace ctx p' rest
        (fun d hd => hp d (List.mem_cons_of_mem c hd))]
    rfl

/-- The character-list form of the expression `{args.KEY?}`. -/
def argsOptTok (key : List Char) : List Char :=
  lbrace :: ("args".data ++ Char.ofNat 46 :: (key ++ Char.ofNat 63 :: [rbrace]))

theorem matchExprAt_args_opt (key tail : List Char) (hk : validIdent key = true) :
    matchExprAt (argsOptTok key ++ tail) =
      some ({ full := argsOptTok key, kind := "args", key := key, defaultRaw := none },
        tail) := by
  have hassoc : argsOptTok key ++ tail =
      lbrace :: ('a' :: ('r' :: ('g' :: ('s' ::
        (Char.ofNat 46 :: (key ++ Char.ofNat 63 :: rbrace :: tail)))))) := by
    simp [argsOptTok]
  rw [hassoc]
  have h2 : takeIdent (key ++ Char.ofNat 63 :: rbrace :: tail) =
      some (key, Char.ofNat 63 :: rbrace :: tail) :=
    takeIdent_append key _ hk (by
      intro c hc
      injection hc with h
      rw [← h]
      decide)
  have h3 : takeSpaces (rbrace :: tail) = ([], rbrace :: tail) := by
    simp [takeSpaces]
    decide
  simp only [matchExprAt, matchKind_args, h2]
  simp [argsOptTok, h3]

/-- The character-list form of the expression `{args.KEY || DFLT}` (with one
space on each side of the `||`). -/
def argsDefTok (key dflt : List Char) : List Char :=
  lbrace :: ("args".data ++ Char.ofNat 46 :: (key ++ Char.ofNat 32 ::
    Char.ofNat 124 :: Char.ofNat 124 :: Char.ofNat 32 :: (dflt ++ [rbrace])))

theorem matchExprAt_args_default (key dflt tail : List Char)
    (hk : validIdent key = true) (hdne : dflt ≠ []) (hdnb : rbrace ∉ dflt)
    (hdns : ∀ c, dflt.head? = some c → isJsSpace c = false) :
    matchExprAt (argsDefTok key dflt ++ tail) =
      some ({ full := argsDefTok key dflt, kind := "args", key := key,
              defaultRaw := some dflt }, tail) := by
  have hassoc : argsDefTok key dflt ++ tail =
      lbrace :: ('a' :: ('r' :: ('g' :: ('s' ::
        (Char.ofNat 46 :: (key ++ Char.ofNat 32 :: Char.ofNat 124 ::
          Char.ofNat 124 :: Char.ofNat 32 :: (dflt ++ rbrace :: tail))))))) := by
    simp [argsDefTok]
  rw [hassoc]
  have h2 : takeIdent (key ++ Char.ofNat 32 :: Char.ofNat 124 :: Char.ofNat 124 ::
      Char.ofNat 32 :: (dflt ++ rbrace :: tail)) =
      some (key, Char.ofNat 32 :: Char.ofNat 124 :: Char.ofNat 124 ::
        Char.ofNat 32 :: (dflt ++ rbrace :: tail)) :=
    takeIdent_append key _ hk (by
      intro c hc
      injection hc with h
      rw [← h]
      decide)
  have h5 : takeSpaces (dflt ++ rbrace :: tail) = ([], dflt ++ rbrace :: tail) := by
    refine takeSpaces_not_space _ ?_
    intro c hc
    cases dflt with
    | nil => exact absurd rfl hdne
    | cons d0 d2 =>
      injection hc with h
      rw [← h]
      exact hdns d0 rfl
  have h6 : takeUntilRbrace (dflt ++ rbrace :: tail) = some (dflt, tail) :=
    takeUntilRbrace_append dflt tail hdnb
  have q1 : ¬ (Char.ofNat 32 = Char.ofNat 63) := by decide
  have q2 : isJsSpace (Char.ofNat 32) = true := by decide
  have q3 : isJsSpace (Char.ofNat 124) = false := by decide
  have q4 : ¬ (Char.ofNat 124 = rbrace) := by decide
  simp only [matchExprAt, matchKind_args, h2]
  simp [argsDefTok, takeSpaces, q1, q2, q3, q4, h5, h6, hdne]

theorem qmark_not_mem_argsTok (key : List Char) (hk : validIdent key = true) :
    (argsTok key).contains (Char.ofNat 63) = false := by
  rw [Bool.eq_false_iff]
  intro hc
  have hmem : Char.ofNat 63 ∈ argsTok key := List.elem_iff.mp hc
  simp [argsTok] at hmem
  rcases hmem with h | h
  · revert h; decide
  · rcases h with h | h
    · cases key with
      | nil => simp [validIdent] at hk
      | cons c t =>
        simp only [validIdent, Bool.and_eq_true, List.all_eq_true] at hk
        rcases List.mem_cons.mp h with rfl | h2
        · exact absurd hk.1 (by decide)
        · exact absurd (hk.2 _ h2) (by decide)
    · revert h; decide

theorem parseExpression_argsTok_value (ctx : ParameterContext) (key : List Char)
    (hk : validIdent key = true) :
    (parseExpression ctx
      { full := argsTok key, kind := "args", key := key, defaultRaw := none }).value =
      (match objGet ctx.args ⟨key⟩ with
       | .undef => .undef
       | v => v) := by
  have hq := qmark_not_mem_argsTok key hk
  simp only [parseExpression, hq]
  cases objGet ctx.args ⟨key⟩ <;> simp

theorem parseExpression_argsOptTok_value (ctx : ParameterContext) (key : List Char) :
    (parseExpression ctx
      { full := argsOptTok key, kind := "args", key := key, defaultRaw := none }).value =
      (match objGet ctx.args ⟨key⟩ with
       | .undef => .omitted
       | v => v) := by
  have hq : (argsOptTok key).contains (Char.ofNat 63) = true :=
    List.elem_iff.mpr (by simp [argsOptTok])
  simp only [parseExpression, hq]
  cases objGet ctx.args ⟨key⟩ <;> simp

theorem parseExpression_argsDefTok_value (ctx : ParameterContext) (key dflt : List Char) :
    (parseExpression ctx
      { full := argsDefTok key dflt, kind := "args", key := key,
        defaultRaw := some dflt }).value =
      (match objGet ctx.args ⟨key⟩ with
       | .undef => parseDefaultValue dflt
       | v => v) := by
  simp only [parseExpression]
  cases objGet ctx.args ⟨key⟩ <;> simp

theorem resolveExprValue_eq (ctx : ParameterContext) (key : List Char) (v : JsValue)
    (hk : validIdent key = true) (hv : objGet ctx.args ⟨key⟩ = v) (hnu : v ≠ .undef) :
    (parseExpression ctx
      { full := argsTok key, kind := "args", key := key, defaultRaw := none }).value = v := by
  rw [parseExpression_argsTok_value ctx key hk, hv]
  cases v
  case undef => exact absurd rfl hnu
  all_goals rfl

theorem replaceExprs_argsTok_step (ctx : ParameterContext) (key : List Char)
    (v : JsValue) (tail : List Char) (hk : validIdent key = true)
    (hv : objGet ctx.args ⟨key⟩ = v) (hnu : v ≠ .undef) :
    replaceExprs ctx (argsTok key ++ tail) =
      (jsToString v).data ++ replaceExprs ctx tail := by
  have hm := matchExprAt_args_plain key tail hk
  rw [replaceExprs_match ctx _ _ _ hm]
  have hm0 := matchExprAt_args_plain key [] hk
  rw [List.append_nil] at hm0
  simp only [hm0, resolveExprValue_eq ctx key v hk hv hnu]

/-- The string obtained by interspersing the fixed fragment `e` between the
members of `parts` (`parts` are the literal fragments around the occurrences
of `e`). -/
def interleave (e : List Char) : List (List Char) → List Char
  | [] => []
  | [p] => p
  | p :: q :: rest => p ++ (e ++ interleave e (q :: rest))

theorem replaceExprs_interleave (ctx : ParameterContext) (key : List Char)
    (v : JsValue) (hk : validIdent key = true) (hv : objGet ctx.args ⟨key⟩ = v)
    (hnu : v ≠ .undef) :
    ∀ (parts : List (List Char)), (∀ p ∈ parts, ∀ c ∈ p, c ≠ lbrace) →
    replaceExprs ctx (interleave (argsTok key) parts) =
      interleave (jsToString v).data parts
  | [], _ => rfl
  | [p], hp => by
    have h1 := replaceExprs_append_noLbrace ctx p []
      (hp p (List.mem_cons_self p []))
    have h0 : replaceExprs ctx [] = [] := rfl
    simpa [interleave, h0] using h1
  | p :: q :: rest, hp => by
    show replaceExprs ctx (p ++ (argsTok key ++ interleave (argsTok key) (q :: rest))) = _
    rw [replaceExprs_append_noLbrace ctx p _ (hp p (List.mem_cons_self p _)),
      replaceExprs_argsTok_step ctx key v _ hk hv hnu,
      replaceExprs_interleave ctx key v hk hv hnu (q :: rest)
        (fun x hx => hp x (List.mem_cons_of_mem p hx))]
    rfl

theorem interleave_two_ne_nil (e : List Char) (he : e ≠ []) (q r : List Char)
    (rest : List (List Char)) : interleave e (q :: r :: rest) ≠ [] := by
  simp only [interleave]
  intro hq
  rcases List.append_eq_nil.mp hq with ⟨-, h2⟩
  rcases List.append_eq_nil.mp h2 with ⟨h3, -⟩
  exact he h3

theorem resolveString_whole (ctx : ParameterContext) (l : List Char) (m : ExprMatch)
    (hm : matchExprAt l = some (m, [])) :
    resolveString ctx ⟨l⟩ = (parseExpression ctx m).value := by
  unfold resolveString
  rw [show (⟨l⟩ : String).data = l from rfl, hm]

theorem resolveString_embedded (ctx : ParameterContext) (l : List Char)
    (hm : matchExprAt l = none ∨ ∃ m t ts, matchExprAt l = some (m, t :: ts)) :
    resolveString ctx ⟨l⟩ = .str ⟨replaceExprs ctx l⟩ := by
  unfold resolveString
  rw [show (⟨l⟩ : String).data = l from rfl]
  rcases hm with h | ⟨m, t, ts, h⟩ <;> rw [h]

/-- C1: a string that is exactly one whole expression `{args.KEY}` whose key
is bound resolves to the bound value with its native type preserved; a string
in which that same expression occurs (one or more times) alongside literal
brace-free text resolves to a string in which every occurrence is replaced by
the string coercion of the resolved value. -/
theorem c1_expression_type_preservation (ctx : ParameterContext) (key : List Char)
    (v : JsValue) (hk : validIdent key = true) (hv : objGet ctx.args ⟨key⟩ = v)
    (hnu : v ≠ .undef) :
    resolve ctx (.str ⟨argsTok key⟩) = v ∧
    (∀ (q r : List Char) (rest : List (List Char)),
      (∀ p ∈ q :: r :: rest, ∀ c ∈ p, c ≠ lbrace) →
      q :: r :: rest ≠ [[], []] →
      resolve ctx (.str ⟨interleave (argsTok key) (q :: r :: rest)⟩) =
        .str ⟨interleave (jsToString v).data (q :: r :: rest)⟩) := by
  have hm0 := matchExprAt_args_plain key [] hk
  rw [List.append_nil] at hm0
  constructor
  · show resolveString ctx ⟨argsTok key⟩ = v
    rw [resolveString_whole ctx _ _ hm0]
    exact resolveExprValue_eq ctx key v hk hv hnu
  · intro q r rest hfree hne
    show resolveString ctx ⟨interleave (argsTok key) (q :: r :: rest)⟩ = _
    have hrepl := replaceExprs_interleave ctx key v hk hv hnu (q :: r :: rest) hfree
    rw [resolveString_embedded ctx _ ?_, hrepl]
    cases q with
    | cons c q2 =>
      left
      exact matchExprAt_none_of_head_ne c _
        (hfree (c :: q2) (List.mem_cons_self _ _) c (List.mem_cons_self c q2))
    | nil =>
      right
      have htail : interleave (argsTok key) (r :: rest) ≠ [] := by
        cases rest with
        | nil =>
          intro hr
          have hr2 : r = [] := by
            rw [show interleave (argsTok key) [r] = r from rfl] at hr
            exact hr
          exact hne (by rw [hr2])
        | cons r2 rest2 => exact interleave_two_ne_nil _ (by simp [argsTok]) r r2 rest2
      cases ht : interleave (argsTok key) (r :: rest) with
      | nil => exact absurd ht htail
      | cons t ts =>
        refine ⟨{ full := argsTok key, kind := "args", key := key, defaultRaw := none }, t, ts, ?_⟩
        have hshape : interleave (argsTok key) ([] :: r :: rest) =
            argsTok key ++ interleave (argsTok key) (r :: rest) := by
          simp [interleave]
        rw [hshape, matchExprAt_args_plain key _ hk, ht]

theorem c1_expression_type_preservation_witness :
    resolve { args := .cons "x" (.num 25) .nil, env := [] }
      (.str "\x7bargs.x\x7d") = .num 25 ∧
    resolve { args := .cons "x" (.num 25) .nil, env := [] }
      (.str "limit=\x7bargs.x\x7d") = .str "limit=25" := by
  have h := c1_expression_type_preservation
    { args := .cons "x" (.num 25) .nil, env := [] } "x".data (.num 25)
    (by decide) rfl (by decide)
  exact ⟨h.1, h.2 "limit=".data [] [] (by decide) (by decide)⟩

theorem resolveFields_append (ctx : ParameterContext) :
    ∀ (a b : JsObj), resolveFields ctx (objAppend a b) =
      objAppend (resolveFields ctx a) (resolveFields ctx b)
  | .nil, _ => rfl
  | .cons k v t, b => by
    simp only [objAppend, resolveFields]
    cases hr : resolve ctx v <;>
      simp only [resolveFields_append ctx t b, objAppend]

theorem objKeys_append : ∀ (a b : JsObj),
    objKeys (objAppend a b) = objKeys a ++ objKeys b
  | .nil, _ => rfl
  | .cons k v t, b => by
    simp [objAppend, objKeys, objKeys_append t b]

theorem resolve_optTok_omitted (ctx : ParameterContext) (key : List Char)
    (hk : validIdent key = true) (hku : objGet ctx.args ⟨key⟩ = .undef) :
    resolve ctx (.str ⟨argsOptTok key⟩) = .omitted := by
  have hm := matchExprAt_args_opt key [] hk
  rw [List.append_nil] at hm
  show resolveString ctx ⟨argsOptTok key⟩ = .omitted
  rw [resolveString_whole ctx _ _ hm, parseExpression_argsOptTok_value ctx key, hku]

/-- C2: a mapping key whose value is the whole-string optional expression
`{args.KEY?}`, with KEY absent from the arguments, is dropped entirely from
the resolved mapping (not kept as null/undefined), while all other keys
resolve normally. -/
theorem c2_optional_missing_key_omitted (ctx : ParameterContext) (key : List Char)
    (k0 : String) (pre post : JsObj) (hk : validIdent key = true)
    (hku : objGet ctx.args ⟨key⟩ = .undef) :
    resolve ctx (.obj (objAppend pre (.cons k0 (.str ⟨argsOptTok key⟩) post))) =
      .obj (objAppend (resolveFields ctx pre) (resolveFields ctx post)) ∧
    (k0 ∉ objKeys (resolveFields ctx pre) → k0 ∉ objKeys (resolveFields ctx post) →
      k0 ∉ objKeys (objAppend (resolveFields ctx pre) (resolveFields ctx post))) := by
  have h1 : resolveFields ctx (.cons k0 (.str ⟨argsOptTok key⟩) post) =
      resolveFields ctx post := by
    simp only [resolveFields]
    rw [resolve_optTok_omitted ctx key hk hku]
  constructor
  · show JsValue.obj (resolveFields ctx (objAppend pre
      (.cons k0 (.str ⟨argsOptTok key⟩) post))) = _
    rw [resolveFields_append, h1]
  · intro hpre hpost hmem
    rw [objKeys_append] at hmem
    rcases List.mem_append.mp hmem with h | h
    exacts [hpre h, hpost h]

theorem c2_optional_missing_key_omitted_witness :
    resolve { args := .nil, env := [] }
      (.obj (.cons "a" (.str "\x7bargs.opt?\x7d") (.cons "b" (.num 1) .nil))) =
      .obj (.cons "b" (.num 1) .nil) ∧
    "a" ∉ objKeys (JsObj.cons "b" (JsValue.num 1) .nil) := by
  have h := c2_optional_missing_key_omitted { args := .nil, env := [] }
    "opt".data "a" .nil (.cons "b" (.num 1) .nil) (by decide) rfl
  exact ⟨h.1, h.2 (by decide) (by decide)⟩

/-- C3: for `{args.KEY || DFLT}` — when KEY has a defined value, resolution
returns that value; when it is absent, resolution returns the default
literal parsed by parseDefaultValue with its fixed precedence (quoted string,
integer, float, boolean, null, undefined, raw text); in particular
`{args.limit || 25}` resolves to the integer 25 under empty arguments and to
10 under `{limit: 10}`. -/
theorem c3_default_operator (ctx : ParameterContext) (key dflt : List Char)
    (hk : validIdent key = true) (hdne : dflt ≠ []) (hdnb : rbrace ∉ dflt)
    (hdns : ∀ c, dflt.head? = some c → isJsSpace c = false) :
    (objGet ctx.args ⟨key⟩ = .undef →
      resolve ctx (.str ⟨argsDefTok key dflt⟩) = parseDefaultValue dflt) ∧
    (∀ v, objGet ctx.args ⟨key⟩ = v → v ≠ .undef →
      resolve ctx (.str ⟨argsDefTok key dflt⟩) = v) ∧
    resolve { args := .nil, env := [] } (.str "\x7bargs.limit || 25\x7d") = .num 25 ∧
    resolve { args := .cons "limit" (.num 10) .nil, env := [] }
      (.str "\x7bargs.limit || 25\x7d") = .num 10 ∧
    parseDefaultValue "\x2725\x27".data = .str "25" ∧
    parseDefaultValue "25".data = .num 25 ∧
    parseDefaultValue "2.5".data = .num (5 / 2) ∧
    parseDefaultValue "true".data = .boolean true ∧
    parseDefaultValue "false".data = .boolean false ∧
    parseDefaultValue "null".data = .null ∧
    parseDefaultValue "undefined".data = .undef ∧
    parseDefaultValue "foo bar".data = .str "foo bar" := by
  have hm := matchExprAt_args_default key dflt [] hk hdne hdnb hdns
  rw [List.append_nil] at hm
  have hval := parseExpression_argsDefTok_value ctx key dflt
  refine ⟨?_, ?_, by decide, by decide, by decide, by decide, ?_,
    by decide, by decide, by decide, by decide, by decide⟩
  · intro hku
    show resolveString ctx ⟨argsDefTok key dflt⟩ = _
    rw [resolveString_whole ctx _ _ hm, hval, hku]
  · intro v hv hnu
    show resolveString ctx ⟨argsDefTok key dflt⟩ = v
    rw [resolveString_whole ctx _ _ hm, hval, hv]
    cases v
    case undef => exact absurd rfl hnu
    all_goals rfl
  · have hfl : parseDefaultValue "2.5".data =
        .num ((digitsToNat "2".data : ℚ) +
          (digitsToNat "5".data : ℚ) / 10 ^ ("5".data).length) := rfl
    rw [hfl]
    have hq : ((digitsToNat "2".data : ℚ) +
        (digitsToNat "5".data : ℚ) / 10 ^ ("5".data).length) = 5 / 2 := by
      norm_num [show digitsToNat "2".data = 2 from rfl,
        show digitsToNat "5".data = 5 from rfl,
        show ("5".data).length = 1 from rfl]
    rw [hq]

theorem c3_default_operator_witness :
    resolve { args := .nil, env := [] }
      (.str "\x7bargs.limit || 25\x7d") = .num 25 ∧
    resolve { args := .cons "limit" (.num 10) .nil, env := [] }
      (.str "\x7bargs.limit || 25\x7d") = .num 10 := by
  constructor
  · exact (c3_default_operator { args := .nil, env := [] } "limit".data "25".data
      (by decide) (by decide) (by decide) (by decide)).1 rfl
  · exact ((c3_default_operator { args := .cons "limit" (.num 10) .nil, env := [] }
      "limit".data "25".data (by decide) (by decide) (by decide) (by decide)).2.1
      (.num 10) rfl (by decide))

theorem replaceFirst_chars : ∀ (s pat rep : List Char) (c : Char),
    c ∈ replaceFirst s pat rep → c ∈ s ∨ c ∈ rep
  | [], _, _, c, h => by simp [replaceFirst] at h
  | a :: s2, pat, rep, c, h => by
    simp only [replaceFirst] at h
    split at h
    · rcases List.mem_append.mp h with h1 | h1
      · exact Or.inr h1
      · exact Or.inl (List.drop_subset _ _ h1)
    · rcases List.mem_cons.mp h with rfl | h1
      · exact Or.inl (List.mem_cons_self _ _)
      · rcases replaceFirst_chars s2 pat rep c h1 with h2 | h2
        · exact Or.inl (List.mem_cons_of_mem _ h2)
        · exact Or.inr h2

theorem substPathParams_chars : ∀ (o : JsObj) (url : String) (c : Char),
    c ∈ (substPathParams url o).data →
    c ∈ url.data ∨ ∃ s : String, c ∈ (encodeURIComponent s).data
  | .nil, _, _, h => Or.inl h
  | .cons p v t, url, c, h => by
    simp only [substPathParams] at h
    cases v with
    | undef => exact substPathParams_chars t url c h
    | null => exact substPathParams_chars t url c h
    | str s =>
      rcases substPathParams_chars t _ c h with h1 | h1
      · rcases replaceFirst_chars _ _ _ c h1 with h2 | h2
        · exact Or.inl h2
        · exact Or.inr ⟨jsToString (.str s), h2⟩
      · exact Or.inr h1
    | num q =>
      rcases substPathParams_chars t _ c h with h1 | h1
      · rcases replaceFirst_chars _ _ _ c h1 with h2 | h2
        · exact Or.inl h2
        · exact Or.inr ⟨jsToString (.num q), h2⟩
      · exact Or.inr h1
    | boolean b =>
      rcases substPathParams_chars t _ c h with h1 | h1
      · rcases replaceFirst_chars _ _ _ c h1 with h2 | h2
        · exact Or.inl h2
        · exact Or.inr ⟨jsToString (.boolean b), h2⟩
      · exact Or.inr h1
    | omitted =>
      rcases substPathParams_chars t _ c h with h1 | h1
      · rcases replaceFirst_chars _ _ _ c h1 with h2 | h2
        · exact Or.inl h2
        · exact Or.inr ⟨jsToString .omitted, h2⟩
      · exact Or.inr h1
    | arr xs =>
      rcases substPathParams_chars t _ c h with h1 | h1
      · rcases replaceFirst_chars _ _ _ c h1 with h2 | h2
        · exact Or.inl h2
        · exact Or.inr ⟨jsToString (.arr xs), h2⟩
      · exact Or.inr h1
    | obj fs =>
      rcases substPathParams_chars t _ c h with h1 | h1
      · rcases replaceFirst_chars _ _ _ c h1 with h2 | h2
        · exact Or.inl h2
        · exact Or.inr ⟨jsToString (.obj fs), h2⟩
      · exact Or.inr h1

/-- The concrete tool of the C5 example: `/users/{id}` with
`pathParams = {id: "{args.user_id}"}`. -/
def toolC5 : ToolDef :=
  { name := "get_user", description := "d", method := .get,
    path := "/users/\x7bid\x7d",
    pathParams := some (.cons "id" (.str "\x7bargs.user_id\x7d") .nil),
    queryParams := none, headers := none, bodyTemplate := none,
    responseTransform := none,
    inputSchema := { ty := .object, properties := none, required := none } }

/-- C5: each resolved path-parameter value is percent-encoded individually
(encodeURIComponent of its string coercion) and substituted into the path by
literal token replacement: the example `/users/{id}` with
`args = {user_id: "a b"}` builds `/users/a%20b`, `encodeURIComponent`
turns `"a b"` into `"a%20b"`, and in general every character of a
substituted URL comes either from the path template itself or from the
percent-encoding of some value. -/
theorem c5_path_params_percent_encoded :
    buildUrl toolC5 { args := .cons "user_id" (.str "a b") .nil, env := [] } =
      .ok "/users/a%20b" ∧
    encodeURIComponent "a b" = "a%20b" ∧
    (∀ (tool : ToolDef) (ctx : ParameterContext) (c : Char),
      c ∈ (substitutedUrl tool ctx).data →
      c ∈ tool.path.data ∨ ∃ s : String, c ∈ (encodeURIComponent s).data) := by
  refine ⟨rfl, rfl, ?_⟩
  intro tool ctx c hc
  unfold substitutedUrl at hc
  cases hpp : tool.pathParams with
  | none => rw [hpp] at hc; exact Or.inl hc
  | some pp =>
    rw [hpp] at hc
    exact substPathParams_chars _ _ c hc

/-- C5 witness: an instance of the character-provenance conjunct at the
concrete tool (the percent of `%20` comes from an encoded value). -/
theorem c5_path_params_percent_encoded_witness :
    (Char.ofNat 37) ∈ (toolC5.path.data : List Char) ∨
      ∃ s : String, (Char.ofNat 37) ∈ (encodeURIComponent s).data := by
  refine c5_path_params_percent_encoded.2.2 toolC5
    { args := .cons "user_id" (.str "a b") .nil, env := [] } (Char.ofNat 37) ?_
  decide
/-- A list avoids both brace characters. -/
def BraceFree (l : List Char) : Prop := ∀ c ∈ l, c ≠ lbrace ∧ c ≠ rbrace

instance (l : List Char) : Decidable (BraceFree l) :=
  List.decidableBAll _ l

theorem isPrefixList_iff : ∀ (p s : List Char),
    isPrefixList p s = true ↔ ∃ r, s = p ++ r
  | [], s => by simp [isPrefixList]
  | _ :: _, [] => by simp [isPrefixList]
  | a :: as, b :: bs => by
    simp only [isPrefixList, Bool.and_eq_true, beq_iff_eq, List.cons_append,
      List.cons.injEq]
    rw [isPrefixList_iff as bs]
    constructor
    · rintro ⟨rfl, r, rfl⟩
      exact ⟨r, rfl, rfl⟩
    · rintro ⟨r, rfl, rfl⟩
      exact ⟨rfl, r, rfl⟩

theorem bfSplit : ∀ (k v x y : List Char), (∀ c ∈ k, c ≠ lbrace) →
    k ++ rbrace :: v = x ++ lbrace :: y →
    ∃ x2, x = k ++ rbrace :: x2 ∧ v = x2 ++ lbrace :: y
  | [], v, x, y, _, h => by
    cases x with
    | nil =>
      simp only [List.nil_append, List.cons.injEq] at h
      exact absurd h.1 (by decide)
    | cons c x2 =>
      simp only [List.nil_append, List.cons_append, List.cons.injEq] at h
      exact ⟨x2, by rw [← h.1]; rfl, h.2⟩
  | c :: k2, v, x, y, hbf, h => by
    cases x with
    | nil =>
      simp only [List.cons_append, List.nil_append, List.cons.injEq] at h
      exact absurd h.1 (hbf c (List.mem_cons_self _ _))
    | cons d x2 =>
      simp only [List.cons_append, List.cons.injEq] at h
      obtain ⟨x3, h1, h2⟩ := bfSplit k2 v x2 y
        (fun e he => hbf e (List.mem_cons_of_mem _ he)) h.2
      exact ⟨x3, by rw [← h.1, h1]; rfl, h2⟩

theorem bfEq : ∀ (k v nm y : List Char), (∀ c ∈ k, c ≠ rbrace) →
    (∀ c ∈ nm, c ≠ rbrace) →
    k ++ rbrace :: v = nm ++ rbrace :: y → k = nm ∧ v = y
  | [], v, nm, y, _, hnm, h => by
    cases nm with
    | nil => simp only [List.nil_append, List.cons.injEq] at h; exact ⟨rfl, h.2⟩
    | cons c nm2 =>
      simp only [List.nil_append, List.cons_append, List.cons.injEq] at h
      exact absurd h.1.symm (hnm c (List.mem_cons_self _ _))
  | c :: k2, v, nm, y, hk, hnm, h => by
    cases nm with
    | nil =>
      simp only [List.cons_append, List.nil_append, List.cons.injEq] at h
      exact absurd h.1 (hk c (List.mem_cons_self _ _))
    | cons d nm2 =>
      simp only [List.cons_append, List.cons.injEq] at h
      obtain ⟨h1, h2⟩ := bfEq k2 v nm2 y
        (fun e he => hk e (List.mem_cons_of_mem _ he))
        (fun e he => hnm e (List.mem_cons_of_mem _ he)) h.2
      exact ⟨by rw [h.1, h1], h2⟩

theorem replaceFirst_copy : ∀ (w x pat2 rep : List Char),
    (∀ c ∈ w, c ≠ lbrace) →
    replaceFirst (w ++ x) (lbrace :: pat2) rep =
      w ++ replaceFirst x (lbrace :: pat2) rep
  | [], x, pat2, rep, _ => by simp
  | c :: w2, x, pat2, rep, hw => by
    have hc : c ≠ lbrace := hw c (List.mem_cons_self _ _)
    have hp : isPrefixList (lbrace :: pat2) (c :: (w2 ++ x)) = false := by
      simp only [isPrefixList, Bool.and_eq_false_iff, beq_eq_false_iff_ne, ne_eq]
      exact Or.inl fun h => hc h.symm
    simp only [List.cons_append, replaceFirst, List.append_eq, hp,
      Bool.false_eq_true, if_false]
    rw [replaceFirst_copy w2 x pat2 rep (fun e he => hw e (List.mem_cons_of_mem _ he))]

theorem infShift (k d u nm v : List Char) (hne : k ≠ nm)
    (hk : BraceFree k) (hnm : ∀ c ∈ nm, c ≠ rbrace)
    (h : braceTok k ++ d = u ++ (braceTok nm ++ v)) :
    ∃ u2, u = braceTok k ++ u2 ∧ d = u2 ++ (braceTok nm ++ v) := by
  cases u with
  | nil =>
    simp only [braceTok, List.nil_append, List.cons_append, List.append_assoc,
      List.singleton_append, List.cons.injEq] at h
    obtain ⟨hkn, -⟩ := bfEq k d nm v (fun c hc => (hk c hc).2) hnm h.2
    exact absurd hkn hne
  | cons c u2 =>
    simp only [braceTok, List.cons_append, List.append_assoc,
      List.singleton_append, List.cons.injEq] at h
    obtain ⟨x2, h1, h2⟩ := bfSplit k d u2 (nm ++ rbrace :: v)
      (fun c hc => (hk c hc).1) h.2
    refine ⟨x2, ?_, ?_⟩
    · rw [← h.1, h1]; simp [braceTok]
    · rw [h2]; simp [braceTok]

theorem rfPresOne (k nm rep : List Char) (hne : k ≠ nm) (hk : BraceFree k)
    (hnm : BraceFree nm) :
    ∀ (s u v : List Char), s = u ++ (braceTok nm ++ v) →
    ∃ u2 v2, replaceFirst s (braceTok k) rep = u2 ++ (braceTok nm ++ v2) := by
  intro s
  induction s with
  | nil =>
    intro u v h
    exact absurd h.symm (by simp [braceTok])
  | cons c s2 ih =>
    intro u v h
    by_cases hp : isPrefixList (braceTok k) (c :: s2) = true
    · obtain ⟨r, hr⟩ := (isPrefixList_iff _ _).mp hp
      have hd : replaceFirst (c :: s2) (braceTok k) rep = rep ++ r := by
        simp only [replaceFirst, hp, if_true]
        rw [hr, List.drop_left]
      rw [h] at hr
      obtain ⟨u2, hu2, hr2⟩ := infShift k r u nm v hne hk
        (fun c hc => (hnm c hc).2) hr.symm
      exact ⟨rep ++ u2, v, by rw [hd, hr2, List.append_assoc]⟩
    · have hd : replaceFirst (c :: s2) (braceTok k) rep =
          c :: replaceFirst s2 (braceTok k) rep := by
        simp only [replaceFirst, List.append_eq]
        rw [if_neg hp]
      cases u with
      | nil =>
        rw [show ([] : List Char) ++ (braceTok nm ++ v) =
          lbrace :: ((nm ++ [rbrace]) ++ v) from by simp [braceTok]] at h
        injection h with h1 h2
        have hw : ∀ c2 ∈ nm ++ [rbrace], c2 ≠ lbrace := by
          intro c2 hc2
          rcases List.mem_append.mp hc2 with h3 | h3
          · exact (hnm c2 h3).1
          · rw [List.mem_singleton.mp h3]; decide
        refine ⟨[], replaceFirst v (braceTok k) rep, ?_⟩
        rw [hd, h2, show braceTok k = lbrace :: (k ++ [rbrace]) from rfl,
          replaceFirst_copy (nm ++ [rbrace]) v (k ++ [rbrace]) rep hw, h1]
        simp [braceTok]
      | cons c0 u2 =>
        rw [List.cons_append] at h
        injection h with h1 h2
        obtain ⟨u3, v3, h3⟩ := ih u2 v h2
        exact ⟨c0 :: u3, v3, by rw [hd, h3, h1]; rfl⟩

theorem rfPresTwo (k nm rep : List Char) (hne : k ≠ nm) (hk : BraceFree k)
    (hnm : BraceFree nm) :
    ∀ (s a b c2 : List Char),
    s = a ++ (braceTok nm ++ (b ++ (braceTok nm ++ c2))) →
    ∃ a2 b2 c3, replaceFirst s (braceTok k) rep =
      a2 ++ (braceTok nm ++ (b2 ++ (braceTok nm ++ c3))) := by
  intro s
  induction s with
  | nil =>
    intro a b c2 h
    exact absurd h.symm (by simp [braceTok])
  | cons c s2 ih =>
    intro a b c2 h
    by_cases hp : isPrefixList (braceTok k) (c :: s2) = true
    · obtain ⟨r, hr⟩ := (isPrefixList_iff _ _).mp hp
      have hd : replaceFirst (c :: s2) (braceTok k) rep = rep ++ r := by
        simp only [replaceFirst, hp, if_true]
        rw [hr, List.drop_left]
      rw [h] at hr
      obtain ⟨u2, hu2, hr2⟩ := infShift k r a nm
        (b ++ (braceTok nm ++ c2)) hne hk (fun c hc => (hnm c hc).2) hr.symm
      exact ⟨rep ++ u2, b, c2, by rw [hd, hr2, List.append_assoc]⟩
    · have hd : replaceFirst (c :: s2) (braceTok k) rep =
          c :: replaceFirst s2 (braceTok k) rep := by
        simp only [replaceFirst, List.append_eq]
        rw [if_neg hp]
      cases a with
      | nil =>
        rw [show ([] : List Char) ++ (braceTok nm ++ (b ++ (braceTok nm ++ c2))) =
          lbrace :: ((nm ++ [rbrace]) ++ (b ++ (braceTok nm ++ c2))) from by
            simp [braceTok]] at h
        injection h with h1 h2
        have hw : ∀ c3 ∈ nm ++ [rbrace], c3 ≠ lbrace := by
          intro c3 hc3
          rcases List.mem_append.mp hc3 with h3 | h3
          · exact (hnm c3 h3).1
          · rw [List.mem_singleton.mp h3]; decide
        obtain ⟨u3, v3, h3⟩ := rfPresOne k nm rep hne hk hnm
          (b ++ (braceTok nm ++ c2)) b c2 rfl
        refine ⟨[], u3, v3, ?_⟩
        rw [show braceTok k = lbrace :: (k ++ [rbrace]) from rfl] at h3
        rw [hd, h2, show braceTok k = lbrace :: (k ++ [rbrace]) from rfl,
          replaceFirst_copy (nm ++ [rbrace]) _ (k ++ [rbrace]) rep hw, h3, h1]
        simp [braceTok]
      | cons c0 a2 =>
        rw [List.cons_append] at h
        injection h with h1 h2
        obtain ⟨u3, b3, c3, h3⟩ := ih a2 b c2 h2
        exact ⟨c0 :: u3, b3, c3, by rw [hd, h3, h1]; rfl⟩

theorem rfSameTwoOne (nm rep : List Char) (hnm : BraceFree nm) :
    ∀ (s a b c2 : List Char),
    s = a ++ (braceTok nm ++ (b ++ (braceTok nm ++ c2))) →
    ∃ u2 v2, replaceFirst s (braceTok nm) rep = u2 ++ (braceTok nm ++ v2) := by
  intro s
  induction s with
  | nil =>
    intro a b c2 h
    exact absurd h.symm (by simp [braceTok])
  | cons c s2 ih =>
    intro a b c2 h
    by_cases hp : isPrefixList (braceTok nm) (c :: s2) = true
    · obtain ⟨r, hr⟩ := (isPrefixList_iff _ _).mp hp
      have hd : replaceFirst (c :: s2) (braceTok nm) rep = rep ++ r := by
        simp only [replaceFirst, hp, if_true]
        rw [hr, List.drop_left]
      rw [h] at hr
      cases a with
      | nil =>
        rw [List.nil_append] at hr
        have hr2 := List.append_cancel_left hr
        exact ⟨rep ++ b, c2, by rw [hd, ← hr2, List.append_assoc]⟩
      | cons c0 a2 =>
        have hr3 : nm ++ rbrace :: r =
            a2 ++ lbrace :: (nm ++ rbrace :: (b ++ lbrace :: (nm ++ rbrace :: c2))) := by
          have := hr
          simp only [braceTok, List.cons_append, List.append_assoc,
            List.singleton_append, List.nil_append, List.cons.injEq] at this
          exact this.2.symm
        obtain ⟨x2, hx1, hx2⟩ := bfSplit nm r a2 _ (fun c hc => (hnm c hc).1) hr3
        refine ⟨rep ++ x2, b ++ (braceTok nm ++ c2), ?_⟩
        rw [hd, hx2]
        simp [braceTok, List.append_assoc]
    · have hd : replaceFirst (c :: s2) (braceTok nm) rep =
          c :: replaceFirst s2 (braceTok nm) rep := by
        simp only [replaceFirst, List.append_eq]
        rw [if_neg hp]
      cases a with
      | nil =>
        exact absurd ((isPrefixList_iff _ _).mpr
          ⟨b ++ (braceTok nm ++ c2), by rw [h]; rfl⟩) hp
      | cons c0 a2 =>
        rw [List.cons_append] at h
        injection h with h1 h2
        obtain ⟨u3, v3, h3⟩ := ih a2 b c2 h2
        exact ⟨c0 :: u3, v3, by rw [hd, h3, h1]; rfl⟩

theorem substPathParams_append : ∀ (o1 o2 : JsObj) (url : String),
    substPathParams url (objAppend o1 o2) =
      substPathParams (substPathParams url o1) o2
  | .nil, _, _ => rfl
  | .cons p v t, o2, url => by
    simp only [objAppend, substPathParams]
    exact substPathParams_append t o2 _

theorem substPathParams_cons_ne (url : String) (p : String) (v : JsValue)
    (t : JsObj) (h1 : v ≠ .undef) (h2 : v ≠ .null) :
    substPathParams url (.cons p v t) =
      substPathParams
        (replaceFirstS url ⟨braceTok p.data⟩
          (encodeURIComponent (jsToString v))) t := by
  cases v with
  | undef => exact absurd rfl h1
  | null => exact absurd rfl h2
  | str s => rfl
  | num q => rfl
  | boolean b => rfl
  | omitted => rfl
  | arr xs => rfl
  | obj fs => rfl

theorem substPathParams_pres_one (nm : List Char) :
    ∀ (o : JsObj) (url : String) (u v : List Char),
    (∀ k ∈ objKeys o, k.data ≠ nm ∧ BraceFree k.data) →
    BraceFree nm →
    url.data = u ++ (braceTok nm ++ v) →
    ∃ u2 v2, (substPathParams url o).data = u2 ++ (braceTok nm ++ v2)
  | .nil, _, u, v, _, _, h => ⟨u, v, h⟩
  | .cons p val t, url, u, v, hk, hnm, h => by
    have hp := hk p (List.mem_cons_self _ _)
    have ht : ∀ k ∈ objKeys t, k.data ≠ nm ∧ BraceFree k.data :=
      fun k hk2 => hk k (List.mem_cons_of_mem _ hk2)
    by_cases h1 : val = .undef
    · subst h1
      exact substPathParams_pres_one nm t url u v ht hnm h
    · by_cases h2 : val = .null
      · subst h2
        exact substPathParams_pres_one nm t url u v ht hnm h
      · rw [substPathParams_cons_ne url p val t h1 h2]
        obtain ⟨u2, v2, hh⟩ := rfPresOne p.data nm
          (encodeURIComponent (jsToString val)).data hp.1 hp.2 hnm url.data u v h
        exact substPathParams_pres_one nm t _ u2 v2 ht hnm hh

theorem substPathParams_pres_two (nm : List Char) :
    ∀ (o : JsObj) (url : String) (a b c2 : List Char),
    (∀ k ∈ objKeys o, k.data ≠ nm ∧ BraceFree k.data) →
    BraceFree nm →
    url.data = a ++ (braceTok nm ++ (b ++ (braceTok nm ++ c2))) →
    ∃ a2 b2 c3, (substPathParams url o).data =
      a2 ++ (braceTok nm ++ (b2 ++ (braceTok nm ++ c3)))
  | .nil, _, a, b, c2, _, _, h => ⟨a, b, c2, h⟩
  | .cons p val t, url, a, b, c2, hk, hnm, h => by
    have hp := hk p (List.mem_cons_self _ _)
    have ht : ∀ k ∈ objKeys t, k.data ≠ nm ∧ BraceFree k.data :=
      fun k hk2 => hk k (List.mem_cons_of_mem _ hk2)
    by_cases h1 : val = .undef
    · subst h1
      exact substPathParams_pres_two nm t url a b c2 ht hnm h
    · by_cases h2 : val = .null
      · subst h2
        exact substPathParams_pres_two nm t url a b c2 ht hnm h
      · rw [substPathParams_cons_ne url p val t h1 h2]
        obtain ⟨a2, b2, c3, hh⟩ := rfPresTwo p.data nm
          (encodeURIComponent (jsToString val)).data hp.1 hp.2 hnm url.data a b c2 h
        exact substPathParams_pres_two nm t _ a2 b2 c3 ht hnm hh

theorem objGet_split : ∀ (o : JsObj) (key : String), objGet o key ≠ .undef →
    ∃ pre post, o = objAppend pre (.cons key (objGet o key) post) ∧
      key ∉ objKeys pre
  | .nil, _, h => absurd rfl h
  | .cons k v t, key, h => by
    by_cases hk : k = key
    · subst hk
      refine ⟨.nil, t, ?_, by simp [objKeys]⟩
      simp [objAppend, objGet]
    · have hg : objGet (JsObj.cons k v t) key = objGet t key := by
        simp [objGet, hk]
      have h2 : objGet t key ≠ .undef := by rw [← hg]; exact h
      obtain ⟨pre, post, hp1, hp2⟩ := objGet_split t key h2
      refine ⟨.cons k v pre, post, ?_, ?_⟩
      · simp only [objAppend, hg]
        rw [← hp1]
      · simp only [objKeys, List.mem_cons, not_or]
        exact ⟨fun he => hk he.symm, hp2⟩

theorem objKeys_resolveFields_sublist (ctx : ParameterContext) :
    ∀ o : JsObj, (objKeys (resolveFields ctx o)).Sublist (objKeys o)
  | .nil => List.Sublist.refl _
  | .cons k v t => by
    simp only [resolveFields]
    split
    · exact (objKeys_resolveFields_sublist ctx t).cons _
    · exact (objKeys_resolveFields_sublist ctx t).cons₂ _

/-- The C9 counterexample tool: path template `/{id}/{id}` and a pathParams
object whose FIRST key itself contains brace characters (`id}/{id`), so that
its token `{id}/{id}` overlaps both `{id}` occurrences at once. -/
def toolC9 : ToolDef :=
  { name := "t9", description := "d", method := .get,
    path := "/\x7bid\x7d/\x7bid\x7d",
    pathParams := some (.cons "id\x7d/\x7bid" (.str "\x7bargs.a\x7d")
      (.cons "id" (.str "\x7bargs.b\x7d") .nil)),
    queryParams := none, headers := none, bodyTemplate := none,
    responseTransform := none,
    inputSchema := { ty := .object, properties := none, required := none } }

/-- The call context of the C9 counterexample. -/
def ctxC9 : ParameterContext :=
  { args := .cons "a" (.str "x") (.cons "b" (.str "y") .nil), env := [] }

/-- C9 counterexample: `toolC9`'s path contains the token `\x7bid\x7d` twice,
its pathParams supply a defined, non-null binding for `id` (resolving to the
string `"y"`), and yet `buildUrl` SUCCEEDS (yielding `/x`): the first,
brace-containing key's token `\x7bid\x7d/\x7bid\x7d` consumes both
occurrences in a single first-occurrence replacement, so no unresolved
placeholder survives and no error is raised. -/
theorem c9_counterexample :
    toolC9.path.data =
      "/".data ++ (braceTok "id".data ++ ("/".data ++ (braceTok "id".data ++ []))) ∧
    objGet (resolveFields ctxC9
      (.cons "id\x7d/\x7bid" (.str "\x7bargs.a\x7d")
        (.cons "id" (.str "\x7bargs.b\x7d") .nil))) "id" = .str "y" ∧
    buildUrl toolC9 ctxC9 = .ok "/x" := by
  refine ⟨by decide, by decide, rfl⟩

/-- C9 (amended): path substitution replaces only the FIRST occurrence of each
placeholder token; provided every pathParams key is nonempty, brace-free and
the keys are distinct (as the keys of a JS object literal always are), a tool
whose path template contains the same `\x7bname\x7d` token twice always fails
to build with an unresolved-path-parameter error, even when pathParams
supplies a defined, non-null binding for that name: the later occurrence
survives substitution and trips the unresolved-placeholder scan. (Without the
brace-free-keys proviso the claim is false: see the counterexample, where a
key containing braces consumes both occurrences at once.) -/
theorem c9_duplicate_placeholder_fails (tool : ToolDef) (args : JsObj)
    (env : List (String × String)) (pp : JsObj) (nm a b c2 : List Char)
    (hpp : tool.pathParams = some pp)
    (hkeys : ∀ k ∈ objKeys pp, k.data ≠ [] ∧ BraceFree k.data)
    (hnodup : (objKeys pp).Nodup)
    (hdef : objGet (resolveFields { args := args, env := env } pp) ⟨nm⟩ ≠ .undef)
    (hnn : objGet (resolveFields { args := args, env := env } pp) ⟨nm⟩ ≠ .null)
    (hpath : tool.path.data = a ++ (braceTok nm ++ (b ++ (braceTok nm ++ c2)))) :
    ∃ e, buildUrl tool { args := args, env := env } = .error e := by
  obtain ⟨pre, post, hsplit, hpre⟩ :=
    objGet_split (resolveFields { args := args, env := env } pp) ⟨nm⟩ hdef
  have hsub := objKeys_resolveFields_sublist { args := args, env := env } pp
  have hkeys2 : ∀ k ∈ objKeys (resolveFields { args := args, env := env } pp),
      k.data ≠ [] ∧ BraceFree k.data :=
    fun k hk => hkeys k (hsub.subset hk)
  have hnodup2 := hnodup.sublist hsub
  have hkeyseq : objKeys (resolveFields { args := args, env := env } pp) =
      objKeys pre ++ (⟨nm⟩ : String) :: objKeys post := by
    rw [hsplit, objKeys_append]
    rfl
  have hnmMem : (⟨nm⟩ : String) ∈
      objKeys (resolveFields { args := args, env := env } pp) := by
    rw [hkeyseq]
    exact List.mem_append_right _ (List.mem_cons_self _ _)
  have hnmProps := hkeys2 _ hnmMem
  rw [hkeyseq] at hnodup2
  have hpost : (⟨nm⟩ : String) ∉ objKeys post :=
    (List.nodup_cons.mp (List.nodup_append.mp hnodup2).2.1).1
  have hStrData : ∀ k : String, k.data = nm → k = ⟨nm⟩ := by
    intro k hk
    cases k with
    | mk d => rw [show String.data ⟨d⟩ = d from rfl] at hk; rw [hk]
  have hpre_ne : ∀ k ∈ objKeys pre, k.data ≠ nm ∧ BraceFree k.data := by
    intro k hk
    refine ⟨fun he => hpre (hStrData k he ▸ hk), ?_⟩
    exact (hkeys2 k (by rw [hkeyseq]; exact List.mem_append_left _ hk)).2
  have hpost_ne : ∀ k ∈ objKeys post, k.data ≠ nm ∧ BraceFree k.data := by
    intro k hk
    refine ⟨fun he => hpost (hStrData k he ▸ hk), ?_⟩
    exact (hkeys2 k (by
      rw [hkeyseq]
      exact List.mem_append_right _ (List.mem_cons_of_mem _ hk))).2
  obtain ⟨a2, b2, c3, h1⟩ :=
    substPathParams_pres_two nm pre tool.path a b c2 hpre_ne hnmProps.2 hpath
  obtain ⟨u2, v2, h2⟩ := rfSameTwoOne nm
    (encodeURIComponent (jsToString
      (objGet (resolveFields { args := args, env := env } pp) ⟨nm⟩))).data
    hnmProps.2 (substPathParams tool.path pre).data a2 b2 c3 h1
  obtain ⟨u3, v3, h3⟩ := substPathParams_pres_one nm post
    (replaceFirstS (substPathParams tool.path pre) ⟨braceTok nm⟩
      (encodeURIComponent (jsToString
        (objGet (resolveFields { args := args, env := env } pp) ⟨nm⟩))))
    u2 v2 hpost_ne hnmProps.2 h2
  have hurl : substitutedUrl tool { args := args, env := env } =
      substPathParams
        (replaceFirstS (substPathParams tool.path pre) ⟨braceTok nm⟩
          (encodeURIComponent (jsToString
            (objGet (resolveFields { args := args, env := env } pp) ⟨nm⟩))))
        post := by
    simp only [substitutedUrl, hpp]
    rw [hsplit, substPathParams_append,
      substPathParams_cons_ne _ _ _ _ hdef hnn, ← hsplit]
  have hct : ContainsToken (substitutedUrl tool { args := args, env := env }).data := by
    refine @containsToken_of_braceTok nm _ ⟨u3, v3, ?_⟩ hnmProps.1
      (fun hmem => (hnmProps.2 rbrace hmem).2 rfl)
    rw [hurl, h3, List.append_assoc]
  have hne := (matchTokens_ne_nil_iff
    (substitutedUrl tool { args := args, env := env }).data).mpr hct
  cases htok : matchTokens (substitutedUrl tool { args := args, env := env }).data with
  | nil => exact absurd htok hne
  | cons tok toks =>
    refine ⟨{ message := "Unresolved path parameters: " ++
                joinCommaSpace ((tok :: toks).map tokenWithBraces),
              expression := none,
              parameter := some (tokenWithBraces tok) }, ?_⟩
    simp only [buildUrl, htok]

/-- A well-behaved tool with a duplicated `\x7bid\x7d` placeholder and a
plain, brace-free pathParams key. -/
def toolC9w : ToolDef :=
  { name := "t9w", description := "d", method := .get,
    path := "/a/\x7bid\x7d/\x7bid\x7d",
    pathParams := some (.cons "id" (.str "\x7bargs.b\x7d") .nil),
    queryParams := none, headers := none, bodyTemplate := none,
    responseTransform := none,
    inputSchema := { ty := .object, properties := none, required := none } }

/-- C9 witness: the amended theorem applied to `toolC9w`, whose duplicated
`\x7bid\x7d` placeholder makes the build fail although `id` is bound. -/
theorem c9_duplicate_placeholder_fails_witness :
    ∃ e, buildUrl toolC9w
      { args := .cons "b" (.str "y") .nil, env := [] } = .error e := by
  exact c9_duplicate_placeholder_fails toolC9w (.cons "b" (.str "y") .nil) []
    (.cons "id" (.str "\x7bargs.b\x7d") .nil)
    "id".data "/a/".data "/".data []
    rfl (by decide) (by decide) (by decide) (by decide) (by decide)
